import Mathlib

/-!
Verification of the rclarey/torrent BitTorrent implementation (Deno/TypeScript).

Shallow embedding conventions used throughout this development:
* Uint8Array values are modelled as `List Nat` whose elements are bytes
  (0..255); stores into a typed array apply the JavaScript ToUint8 coercion
  (reduce modulo 256, NaN becomes 0) where relevant.
* JavaScript strings are represented by the list of their character codes;
  all strings appearing in theorems are ASCII, where the UTF-8 encoder and
  decoder used by the source (TextEncoder/TextDecoder) act as the identity
  on this representation.
* JavaScript numbers are modelled as `Int` (exact integers) together with an
  explicit two's-complement wrap `toSigned32` at every 32-bit operator
  (`<<`, `| 0`), and `Option Int` where NaN can arise (`none` is NaN).
* Functions that can throw return `Except String` results; the error strings
  abbreviate the messages of the source (which interpolate the offending
  message into the text).
-/

namespace Spec2Proof

/-! ## JavaScript number primitives -/

/-- Two's-complement wrap of an integer into the signed 32-bit range.
This models the JavaScript ToInt32 conversion applied by the bitwise
operators, e.g. `n << 8` and `x | 0`. -/
def toSigned32 (x : Int) : Int :=
  (x + 2 ^ 31) % 2 ^ 32 - 2 ^ 31

/-- Decimal digit values of n, most significant first. The fuel argument
makes the recursion structural (hence kernel-reducible); `n + 1` units of
fuel always suffice since the argument shrinks by a factor of 10 each
step. -/
def natDigitsAux : Nat → Nat → List Nat
  | 0, _ => []
  | fuel + 1, n => if n < 10 then [n] else natDigitsAux fuel (n / 10) ++ [n % 10]

/-- Character codes of the JavaScript decimal string `n.toString()` for a
nonnegative integer n (exact for safe integers, which is the only range the
theorems below use). -/
def natToDigitBytes (n : Nat) : List Nat :=
  (natDigitsAux (n + 1) n).map (fun d => d + 48)

/-- Character codes of `i.toString()` for an integer i. -/
def intToDigitBytes (i : Int) : List Nat :=
  if i < 0 then 45 :: natToDigitBytes (-i).toNat else natToDigitBytes i.toNat

/-- ASCII decimal digit test. -/
def isDigitByte (c : Nat) : Bool :=
  48 ≤ c && c ≤ 57

/-- ASCII whitespace recognised by the JavaScript numeric parsers. Unicode
whitespace beyond ASCII is not modelled; it occurs in no theorem below. -/
def isJsWhitespace (c : Nat) : Bool :=
  c = 9 || c = 10 || c = 11 || c = 12 || c = 13 || c = 32

/-- Value of a most-significant-first list of digit characters. -/
def digitBytesToNat (l : List Nat) : Nat :=
  l.foldl (fun acc c => acc * 10 + (c - 48)) 0

/-- Whitespace trim at both ends. -/
def jsTrim (s : List Nat) : List Nat :=
  ((s.dropWhile isJsWhitespace).reverse.dropWhile isJsWhitespace).reverse

/-- JavaScript `Number(s)` on a whitespace-trimmed string, restricted to
the forms exercised by this development: an optionally signed decimal
numeral, the empty string (which is 0), and everything else NaN (`none`).
Hexadecimal, exponent, decimal-point and Infinity forms are not modelled
and occur in no theorem below. -/
def jsNumberTrimmed (t : List Nat) : Option Int :=
  if t = [] then some 0
  else if t.head? = some 45 then
    (if t.drop 1 ≠ [] ∧ (t.drop 1).all isDigitByte then
      some (-(digitBytesToNat (t.drop 1) : Int)) else none)
  else if t.head? = some 43 then
    (if t.drop 1 ≠ [] ∧ (t.drop 1).all isDigitByte then
      some (digitBytesToNat (t.drop 1) : Int) else none)
  else if t.all isDigitByte then some (digitBytesToNat t : Int) else none

/-- JavaScript `Number(s)` on the string with character codes s. -/
def jsNumber (s : List Nat) : Option Int :=
  jsNumberTrimmed (jsTrim s)

/-- JavaScript `parseInt(s)` (radix 10) after whitespace skipping: an
optional sign and then the longest digit prefix; NaN (`none`) when no digit
is found. The `0x` hexadecimal special case is not modelled and occurs in no
theorem below. -/
def jsParseIntTrimmed (t : List Nat) : Option Int :=
  if t.head? = some 45 then
    (if (t.drop 1).takeWhile isDigitByte = [] then none
      else some (-(digitBytesToNat ((t.drop 1).takeWhile isDigitByte) : Int)))
  else if t.head? = some 43 then
    (if (t.drop 1).takeWhile isDigitByte = [] then none
      else some (digitBytesToNat ((t.drop 1).takeWhile isDigitByte) : Int))
  else
    (if t.takeWhile isDigitByte = [] then none
      else some (digitBytesToNat (t.takeWhile isDigitByte) : Int))

/-- JavaScript `parseInt(s)` (radix 10) on the codes of s. -/
def jsParseInt (s : List Nat) : Option Int :=
  jsParseIntTrimmed (s.dropWhile isJsWhitespace)

/-! ## src/_bytes.ts : readInt / writeInt (claim C8) -/

namespace Bytes

/-- readInt from src/_bytes.ts. The accumulator update is the JavaScript
`n <<= 8; n += byte`: the shift applies ToInt32, so the running value wraps
to a signed 32-bit integer before each byte is added. The subarray
`arr.subarray(offset, offset + nBytes)` is `(arr.drop offset).take nBytes`
(both clamp out-of-range indices). -/
def readInt (arr : List Nat) (nBytes offset : Nat) : Int :=
  ((arr.drop offset).take nBytes).foldl (fun (n : Int) (byte : Nat) => toSigned32 (n * 256) + (byte : Int)) 0

/-- One pass of the writeInt loop of src/_bytes.ts, which runs once per
index from `offset + nBytes - 1` down to `offset` (the first argument is
the number of remaining iterations). Per iteration the source stores
`remaining % 256` (the typed-array store then reduces modulo 256, which the
euclidean `emod` captures for either sign) and updates
`remaining = (remaining / 256) | 0`: division truncated toward zero
(`tdiv`, exact because binary floats divide exactly by 256), wrapped to
signed 32 bits by `| 0`. -/
def writeIntAux : Nat → Int → List Nat → Nat → List Nat
  | 0, _, arr, _ => arr
  | k + 1, remaining, arr, ind =>
    writeIntAux k (toSigned32 (remaining.tdiv 256)) (arr.set ind (remaining.emod 256).toNat)
      (ind - 1)

/-- writeInt from src/_bytes.ts: bounds check, then the descending store
loop. -/
def writeInt (n : Int) (arr : List Nat) (nBytes offset : Nat) : Except String (List Nat) :=
  if arr.length < nBytes + offset then
    .error "attempt to write more bytes than the array has"
  else
    .ok (writeIntAux nBytes n arr (offset + nBytes - 1))

/-- Big-endian byte decomposition: byte i of n values, most significant
first, of the low n bytes of v. -/
def beBytes (n v : Nat) : List Nat :=
  (List.range n).map (fun i => v / 256 ^ (n - 1 - i) % 256)

/-! ## src/_bytes.ts : encodeBinaryData / decodeBinaryData (claim C7) -/

/-- Pass-through test of encodeBinaryData in src/_bytes.ts: bytes 45..57
except 47, 65..90, 95, 97..122 and 126 are emitted verbatim. -/
def passThrough (byte : Nat) : Bool :=
  (44 < byte && byte < 58 && byte != 47) ||
  (64 < byte && byte < 91) ||
  byte == 95 ||
  (96 < byte && byte < 123) ||
  byte == 126

/-- Character code of the hexadecimal digit d (lowercase, as produced by
`Number.prototype.toString(16)`). -/
def hexDigitByte (d : Nat) : Nat :=
  if d < 10 then d + 48 else d + 87

/-- Character codes of `byte.toString(16)` for byte < 256: note this is ONE
digit when byte < 16 (the source does not pad). -/
def jsHexDigits (byte : Nat) : List Nat :=
  if byte < 16 then [hexDigitByte byte] else [hexDigitByte (byte / 16), hexDigitByte (byte % 16)]

/-- encodeBinaryData from src/_bytes.ts, producing the character codes of
the resulting string: pass-through bytes verbatim, any other byte as
a percent sign (37) followed by its unpadded lowercase hex digits. -/
def encodeBinaryData (arr : List Nat) : List Nat :=
  arr.flatMap (fun byte => if passThrough byte then [byte] else 37 :: jsHexDigits byte)

/-- Numeric value of a hex digit character, 0 for anything else (characters
that are not hex digits only arise on inputs no theorem below uses). -/
def hexVal (c : Nat) : Nat :=
  if 48 ≤ c && c ≤ 57 then c - 48
  else if 97 ≤ c && c ≤ 102 then c - 87
  else if 65 ≤ c && c ≤ 70 then c - 65 + 10
  else 0

/-- Value of `parseInt(s, 16)` on the 0-, 1- or 2-character slice following
a percent sign, as used by decodeBinaryData; the final Uint8Array.from
coerces NaN (empty slice) to 0. -/
def jsParseHexSlice : List Nat → Nat
  | [] => 0
  | [a] => hexVal a
  | a :: b :: _ =>
    if 48 ≤ b && b ≤ 57 || 97 ≤ b && b ≤ 102 || 65 ≤ b && b ≤ 70 then hexVal a * 16 + hexVal b
    else hexVal a

/-- decodeBinaryData from src/_bytes.ts on character codes: a percent sign
consumes `s.slice(i+1, i+3)` (up to TWO following characters, fewer at the
end of the string) through parseInt base 16 and advances by 3; any other
character is taken as its own code. -/
def decodeBinaryData : List Nat → List Nat
  | [] => []
  | 37 :: a :: b :: rest => jsParseHexSlice [a, b] :: decodeBinaryData rest
  | 37 :: a :: [] => [jsParseHexSlice [a]]
  | 37 :: [] => [jsParseHexSlice []]
  | c :: rest => c :: decodeBinaryData rest

end Bytes

/-! ## src/piece.ts : block validation (claims C1, C2) -/

namespace Piece

/-- File layout part of an InfoDict (src/metainfo.ts): a single file with
its byte length, or the list of per-file byte lengths of a multi-file
torrent. Only the fields piece validation reads are modelled; name, private
and the hash bytes themselves are never consulted by src/piece.ts. -/
inductive FileLayout where
  | single (length : Nat)
  | multi (fileLengths : List Nat)
deriving DecidableEq

/-- InfoDict as used by src/piece.ts: `piecesCount` is
`info.pieces.length` (the number of 20-byte hashes). -/
structure InfoDict where
  pieceLength : Nat
  piecesCount : Nat
  layout : FileLayout
deriving DecidableEq

/-- RequestMsg fields read by validateRequestedBlock. All three arrive from
4-byte big-endian reads, hence are nonnegative. -/
structure RequestMsg where
  index : Nat
  offset : Nat
  length : Nat
deriving DecidableEq

/-- PieceMsg fields read by validateReceivedBlock; `blockLength` is
`msg.block.length`. -/
structure PieceMsg where
  index : Nat
  offset : Nat
  blockLength : Nat
deriving DecidableEq

/-- BLOCK_SIZE from src/piece.ts. -/
def BLOCK_SIZE : Nat := 1024 * 16

/-- pieceLength from src/piece.ts, whose body is
`(n === info.pieces.length - 1 && info.length % info.pieceLength) || info.pieceLength`.
For a multi-file dict `info.length` is undefined, so the modulus is NaN,
which is falsy and falls through to `info.pieceLength`; the same happens
when the modulus is 0 or when `info.pieceLength` is 0 (modulo by zero is
NaN in JavaScript, hence the extra conjunct). -/
def pieceLength (n : Nat) (info : InfoDict) : Nat :=
  match info.layout with
  | .single l =>
    if n = info.piecesCount - 1 ∧ info.pieceLength ≠ 0 ∧ l % info.pieceLength ≠ 0 then
      l % info.pieceLength
    else
      info.pieceLength
  | .multi _ => info.pieceLength

/-- validateRequestedBlock from src/piece.ts. -/
def validateRequestedBlock (info : InfoDict) (msg : RequestMsg) : Except String Unit :=
  if msg.index ≥ info.piecesCount then
    .error "request message with invalid piece index"
  else
    let reqEnd := msg.offset + msg.length
    let lastPieceLength := pieceLength (info.piecesCount - 1) info
    if (msg.index = info.piecesCount - 1 ∧ reqEnd > lastPieceLength) ∨
        reqEnd > info.pieceLength then
      .error "request message with invalid block length"
    else
      .ok ()

/-- validateReceivedBlock from src/piece.ts. `Math.ceil(pieceLen / BLOCK_SIZE)`
is the exact ceiling division and `Math.floor(msg.offset / BLOCK_SIZE)` the
exact floor, both nonnegative here. -/
def validateReceivedBlock (info : InfoDict) (msg : PieceMsg) : Except String Unit :=
  if msg.index ≥ info.piecesCount then
    .error "piece message with invalid piece index"
  else if msg.offset % BLOCK_SIZE ≠ 0 then
    .error "piece message with invalid block offset"
  else
    let pieceLen := pieceLength msg.index info
    let numBlocks := (pieceLen + BLOCK_SIZE - 1) / BLOCK_SIZE
    let nBlock := msg.offset / BLOCK_SIZE
    if msg.index = info.piecesCount - 1 ∧ nBlock = numBlocks - 1 then
      let lastBlockLength := if pieceLen % BLOCK_SIZE ≠ 0 then pieceLen % BLOCK_SIZE else BLOCK_SIZE
      if msg.blockLength ≠ lastBlockLength then
        .error "piece message with invalid last block length"
      else
        .ok ()
    else if msg.blockLength ≠ BLOCK_SIZE then
      .error "piece message with invalid block length"
    else
      .ok ()

end Piece

/-! ## src/torrent.ts : peer-state message handling (claim C6) -/

namespace Peer

/-- Per-peer session state from src/peer.ts (class Peer): the four
choke/interest flags and the bitfield, sized ceil(pieces.length / 8) at
construction. The connection handle is not modelled. -/
structure PeerState where
  isChoking : Bool
  isInterested : Bool
  amChoking : Bool
  amInterested : Bool
  bitfield : List Nat
deriving DecidableEq

/-- Incoming peer-wire messages whose handling touches only peer state in
Torrent.handleMessages (src/torrent.ts). request, piece and cancel drive
storage instead and are not modelled here. -/
inductive PeerWireMsg where
  | choke
  | unchoke
  | interested
  | uninterested
  | haveMsg (index : Nat)
  | bitfieldMsg (bitfield : List Nat)
deriving DecidableEq

/-- Uint8Array.prototype.set(src) with offset 0: copies src over the start
of dst, leaves the tail of dst unchanged, and throws a RangeError when src
is longer than dst. -/
def typedArraySet (dst src : List Nat) : Except String (List Nat) :=
  if dst.length < src.length then
    .error "RangeError: offset is out of bounds"
  else
    .ok (src ++ dst.drop src.length)

/-- The peer-state switch cases of Torrent.handleMessages (src/torrent.ts).
For the have message, `index >> 3` is `index / 8` and `128 >> bit` is
`128 / 2 ^ bit`; an out-of-range byte index makes the typed-array
read-modify-write a no-op on the array (List.set is likewise a no-op out of
range, and getD 0 matches `undefined | x` being x). -/
def handleMessage (piecesCount : Nat) (peer : PeerState) (msg : PeerWireMsg) :
    Except String PeerState :=
  match msg with
  | .choke => .ok { peer with isChoking := true }
  | .unchoke => .ok { peer with isChoking := false }
  | .interested => .ok { peer with isInterested := true }
  | .uninterested => .ok { peer with isInterested := false }
  | .haveMsg index =>
    if index ≥ piecesCount then
      .error "have message with invalid index"
    else
      let byte := index / 8
      let bit := index % 8
      .ok { peer with
        bitfield := peer.bitfield.set byte ((peer.bitfield.getD byte 0) ||| (128 / 2 ^ bit)) }
  | .bitfieldMsg bf =>
    match typedArraySet peer.bitfield bf with
    | .ok updated => .ok { peer with bitfield := updated }
    | .error e => .error e

end Peer

/-! ## src/server/in_memory_tracker.ts : swarm state (claims C5, C10) -/

namespace Tracker

/-- Announce events from src/types.ts. -/
inductive AnnounceEvent where
  | empty
  | started
  | completed
  | stopped
deriving DecidableEq

/-- Peer states from src/types.ts. -/
inductive PeerKind where
  | seeder
  | leecher
deriving DecidableEq

/-- The tracker-side PeerInfo of src/server/in_memory_tracker.ts restricted
to the fields the counter bookkeeping reads: `state` and `lastUpdated`
(id, ip and port are stored but never consulted again). -/
structure TrackedPeer where
  state : PeerKind
  lastUpdated : Nat
deriving DecidableEq

/-- FileInfo (one swarm) from src/server/in_memory_tracker.ts. The peers
map is an insertion-ordered association list keyed by the `ip:port` string,
mirroring a JavaScript Map. Counters are `Int` because the source can drive
them below zero. -/
structure FileInfo where
  infoHash : String
  complete : Int
  downloaded : Int
  incomplete : Int
  peers : List (String × TrackedPeer)
deriving DecidableEq

/-- The fields of an AnnounceRequest consulted by handleAnnounce:
`infoHash` stands for `req.infoHash.toString()` (the swarm key, an
injective image of the hash bytes), and `now` threads the `Date.now()`
calls explicitly. `left` is the bigint left counter. -/
structure AnnounceReq where
  infoHash : String
  ip : String
  port : Nat
  left : Nat
  event : AnnounceEvent
deriving DecidableEq

/-- Map.prototype.get on an insertion-ordered association list. -/
def lookupA {α : Type} : List (String × α) → String → Option α
  | [], _ => none
  | e :: rest, k => if e.1 = k then some e.2 else lookupA rest k

/-- Map.prototype.set: replace the value at an existing key in place,
otherwise append the new entry at the end. -/
def setA {α : Type} : List (String × α) → String → α → List (String × α)
  | [], k, v => [(k, v)]
  | e :: rest, k, v =>
    if e.1 = k then (e.1, v) :: rest else e :: setA rest k v

/-- Map.prototype.delete: remove the entry at the key, when present. -/
def removeA {α : Type} : List (String × α) → String → List (String × α)
  | [], _ => []
  | e :: rest, k =>
    if e.1 = k then rest else e :: removeA rest k

/-- CLEANUP_INTERVAL from src/server/in_memory_tracker.ts (15 minutes in
milliseconds). -/
def CLEANUP_INTERVAL : Nat := 1000 * 60 * 15

/-- evaluateState from src/server/in_memory_tracker.ts. -/
def evaluateState (req : AnnounceReq) : PeerKind :=
  if req.event = .completed ∨ req.left = 0 then .seeder else .leecher

/-- The whole in-memory swarm table. -/
abbrev TrackerState : Type := List (String × FileInfo)

/-- The locate-or-create / update block of handleAnnounce
(src/server/in_memory_tracker.ts): create the requester entry adjusting one
counter, or on a leecher-to-seeder transition move one count from
incomplete to complete and bump downloaded, then refresh the entry with
the new state and time. -/
def announceUpsert (now : Nat) (req : AnnounceReq) (strPeerId : String) (fi0 : FileInfo) :
    FileInfo :=
  match lookupA fi0.peers strPeerId with
  | none =>
    let state := evaluateState req
    { fi0 with
      peers := setA fi0.peers strPeerId { state := state, lastUpdated := now },
      incomplete := if state = .leecher then fi0.incomplete + 1 else fi0.incomplete,
      complete := if state = .leecher then fi0.complete else fi0.complete + 1 }
  | some requester =>
    let newState := evaluateState req
    let fi := if requester.state = .leecher ∧ newState = .seeder then
        { fi0 with
          incomplete := fi0.incomplete - 1,
          complete := fi0.complete + 1,
          downloaded := fi0.downloaded + 1 }
      else fi0
    { fi with peers := setA fi.peers strPeerId { state := newState, lastUpdated := now } }

/-- The graceful-removal block of handleAnnounce: on a stopped event the
requester entry is deleted and the counter matching its (possibly just
updated) state is decremented. -/
def announceStopped (req : AnnounceReq) (strPeerId : String) (fi1 : FileInfo) : FileInfo :=
  if req.event = .stopped then
    match lookupA fi1.peers strPeerId with
    | some peer =>
      { fi1 with
        peers := removeA fi1.peers strPeerId,
        complete := if peer.state = .seeder then fi1.complete - 1 else fi1.complete,
        incomplete := if peer.state = .seeder then fi1.incomplete else fi1.incomplete - 1 }
    | none => fi1
  else fi1

/-- handleAnnounce from src/server/in_memory_tracker.ts, restricted to its
effect on the swarm table (the respond/reject calls transmit data but do
not change it, and randomSelection reads only the peers map). The source
mutates the FileInfo object held by the map; the model threads the
locate-or-create default, the upsert block and the stopped block in source
order and writes the record back, which is the same map afterwards. -/
def handleAnnounce (now : Nat) (req : AnnounceReq) (infoMap : TrackerState) : TrackerState :=
  let fi0 := (lookupA infoMap req.infoHash).getD
    { infoHash := req.infoHash, complete := 0, downloaded := 0, incomplete := 0, peers := [] }
  let strPeerId := req.ip ++ ":" ++ toString req.port
  setA infoMap req.infoHash (announceStopped req strPeerId (announceUpsert now req strPeerId fi0))

/-- The inner eviction loop of sweepAndDelete: returns the surviving peers
together with the number of removed seeders and removed leechers (deleting
entries while iterating a Map visits each original entry exactly once). -/
def sweepPeers (now : Nat) : List (String × TrackedPeer) → List (String × TrackedPeer) × Int × Int
  | [] => ([], 0, 0)
  | e :: rest =>
    let r := sweepPeers now rest
    if now - e.2.lastUpdated > CLEANUP_INTERVAL then
      (r.1, (if e.2.state = .seeder then r.2.1 + 1 else r.2.1),
        (if e.2.state = .seeder then r.2.2 else r.2.2 + 1))
    else
      (e :: r.1, r.2.1, r.2.2)

/-- Effect of sweepAndDelete on one swarm. -/
def sweepFile (now : Nat) (fi : FileInfo) : FileInfo :=
  let r := sweepPeers now fi.peers
  { fi with complete := fi.complete - r.2.1, incomplete := fi.incomplete - r.2.2, peers := r.1 }

/-- sweepAndDelete from src/server/in_memory_tracker.ts (the cooperative
yield between swarms has no effect on the state). -/
def sweepAndDelete (now : Nat) (infoMap : TrackerState) : TrackerState :=
  infoMap.map (fun kv => (kv.1, sweepFile now kv.2))

/-- One event applied to the tracker state: an announce request or a timer
sweep, each carrying the wall-clock time at which it runs. -/
inductive TrackerStep where
  | announce (now : Nat) (req : AnnounceReq)
  | sweep (now : Nat)

/-- Apply one step. -/
def runStep (m : TrackerState) : TrackerStep → TrackerState
  | .announce now req => handleAnnounce now req m
  | .sweep now => sweepAndDelete now m

/-- Run a sequence of steps from the initial empty table built by
runTracker. -/
def runSteps (steps : List TrackerStep) : TrackerState :=
  steps.foldl runStep []

/-- One entry of a scrape response: `const { peers: _, ...rest } = info`
keeps every FileInfo field except the peers map. -/
structure ScrapeEntry where
  infoHash : String
  complete : Int
  downloaded : Int
  incomplete : Int
deriving DecidableEq

/-- Projection dropping the peers map. -/
def entryOf (fi : FileInfo) : ScrapeEntry :=
  { infoHash := fi.infoHash, complete := fi.complete, downloaded := fi.downloaded,
    incomplete := fi.incomplete }

/-- Outcome of handleScrape: a rejection with a reason, or a response
carrying the per-swarm counters. -/
inductive ScrapeResult where
  | reject (reason : String)
  | respond (files : List ScrapeEntry)
deriving DecidableEq

/-- The accumulation loop of handleScrape: reject the whole request at the
first unknown hash, otherwise push the swarm counters in request order. -/
def scrapeLoop (m : TrackerState) : List String → List ScrapeEntry → ScrapeResult
  | [], acc => .respond acc
  | h :: rest, acc =>
    match lookupA m h with
    | none => .reject "invalid info_hash"
    | some info => scrapeLoop m rest (acc ++ [entryOf info])

/-- handleScrape from src/server/in_memory_tracker.ts: an empty request
list is replaced by the list of all swarm keys. -/
def handleScrape (hashes : List String) (m : TrackerState) : ScrapeResult :=
  scrapeLoop m (if hashes.isEmpty then m.map Prod.fst else hashes) []

/-! ## compact peer lists (claim C9):
src/server/tracker.ts HttpAnnounceRequest.respond and
src/tracker.ts readCompactPeers -/

/-- A peer as the tracker server sees it when serialising: the ip string
(character codes) and the port number. -/
structure AnnouncePeer where
  ip : List Nat
  port : Nat
deriving DecidableEq

/-- String.prototype.split on the dot character (code 46), on character
codes. -/
def splitDot : List Nat → List (List Nat)
  | [] => [[]]
  | c :: rest =>
    match splitDot rest with
    | [] => [[c]]
    | h :: t => if c = 46 then [] :: h :: t else (c :: h) :: t

/-- A `Number(part)` result pushed through a Uint8Array store: NaN becomes
0 and the value is reduced modulo 256 (an absent destructured component is
undefined, whose Number is NaN, coerced to 0 just like the empty string). -/
def numberToByte (s : List Nat) : Nat :=
  match jsNumber s with
  | some v => (v.emod 256).toNat
  | none => 0

/-- The six bytes one peer contributes in the compact branch of
HttpAnnounceRequest.respond (src/server/tracker.ts): the four Number-ed
components of `ip.split(".")`, then `(port / 256) | 0` and `port % 256`,
each through the modulo-256 typed-array store. -/
def encodePeerBytes (p : AnnouncePeer) : List Nat :=
  let parts := splitDot p.ip
  [numberToByte (parts.getD 0 []), numberToByte (parts.getD 1 []),
    numberToByte (parts.getD 2 []), numberToByte (parts.getD 3 []),
    p.port / 256 % 256, p.port % 256]

/-- The compact peers buffer: the source allocates `6 * peers.length` bytes
and writes each peer into its own six slots, which is the concatenation of
the six-byte groups. -/
def compactPeers (peers : List AnnouncePeer) : List Nat :=
  peers.flatMap encodePeerBytes

/-- `arr.join(".")` on a four-byte subarray: decimal digits of each byte
separated by dots. -/
def joinIp (b1 b2 b3 b4 : Nat) : List Nat :=
  natToDigitBytes b1 ++ [46] ++ natToDigitBytes b2 ++ [46] ++
    natToDigitBytes b3 ++ [46] ++ natToDigitBytes b4

/-- readCompactPeers from src/tracker.ts: consume six bytes per peer while
at least six remain (the loop guard is `i < peers.length - 5`), rebuilding
the ip by joining the first four bytes and the port as
`(peers[i+4] << 8) + peers[i+5]` (the shift is exact for byte values). -/
def readCompactPeers : List Nat → List AnnouncePeer
  | b1 :: b2 :: b3 :: b4 :: b5 :: b6 :: rest =>
    { ip := joinIp b1 b2 b3 b4, port := b5 * 256 + b6 } :: readCompactPeers rest
  | _ => []

end Tracker

/-! ## src/bencode.ts : the bencode codec (claims C3, C4) -/

namespace Bencode

mutual
/-- The Bencodeable values of src/bencode.ts. `str` is a native string
(represented, like every string here, by its character codes — exact for
the ASCII strings used below), `bytes` a Uint8Array, `int` an
integer-valued number, `nanum` the number NaN (which the decoder can
produce), `dict` a plain object with string keys in insertion order, and
`mapd` a Map with byte-string keys. Undefined dict values (which the
encoder skips) are not representable and are not needed below. -/
inductive Benc where
  | bytes (b : List Nat)
  | str (s : List Nat)
  | int (n : Int)
  | nanum
  | list (l : BList)
  | dict (d : BDict)
  | mapd (m : BDict)
/-- A list of Bencodeable values. -/
inductive BList where
  | nil
  | cons (hd : Benc) (tl : BList)
/-- Key-value entries in insertion order; keys are byte lists (for `dict`
they are the UTF-8 bytes of the string key, which is the string itself in
our representation). -/
inductive BDict where
  | nil
  | cons (key : List Nat) (val : Benc) (tl : BDict)
end

mutual
/-- encode from src/bencode.ts, producing the pushed byte array. A string
is written as `<len>:<utf8 bytes>`; the source uses the UTF-16
`data.length` as the length prefix while pushing UTF-8 bytes, and the two
agree exactly on ASCII strings, which are the only ones below. Byte strings
are `<len>:<bytes>`; lists `l...e`; Map and plain-object dictionaries both
write each key as a byte string (`te.encode(key)` for objects) followed by
the encoded value, wrapped in `d...e`; numbers are written as
`i<toString>e`, which for NaN is the text NaN. -/
def encB : Benc → List Nat
  | .bytes b => natToDigitBytes b.length ++ 58 :: b
  | .str s => natToDigitBytes s.length ++ 58 :: s
  | .int n => 105 :: (intToDigitBytes n ++ [101])
  | .nanum => [105, 78, 97, 78, 101]
  | .list l => 108 :: (encBL l ++ [101])
  | .dict d => 100 :: (encBD d ++ [101])
  | .mapd m => 100 :: (encBD m ++ [101])
/-- Encoding of the items of a list, in order. -/
def encBL : BList → List Nat
  | .nil => []
  | .cons x tl => encB x ++ encBL tl
/-- Encoding of the entries of a dictionary, in order. -/
def encBD : BDict → List Nat
  | .nil => []
  | .cons k v tl => (natToDigitBytes k.length ++ 58 :: k) ++ (encB v ++ encBD tl)
end

/-- bencode from src/bencode.ts. -/
def bencode (data : Benc) : List Nat := encB data

/-- Result of running a decoder: a value together with the next read
position, a thrown error, or divergence (the source loops forever). Out of
fuel is reported as divergence; every terminating run below is paired with
an explicit sufficient fuel. -/
inductive DRes (α : Type) where
  | ok (pos : Nat) (val : α)
  | err (msg : String)
  | diverge
deriving DecidableEq

/-- Map the value of a result. -/
def DRes.mapVal {α β : Type} (f : α → β) : DRes α → DRes β
  | .ok pos v => .ok pos (f v)
  | .err m => .err m
  | .diverge => .diverge

/-- Index of the first occurrence of c in a list. -/
def firstIdxOf (c : Nat) : List Nat → Option Nat
  | [] => none
  | b :: rest => if b = c then some 0 else (firstIdxOf c rest).map (fun i => i + 1)

/-- `data.indexOf(c, start)`: the absolute index of the first occurrence of
c at or after start, `none` standing for the -1 of the source. -/
def jsIndexOf (data : List Nat) (c : Nat) (start : Nat) : Option Nat :=
  (firstIdxOf c (data.drop start)).map (fun i => start + i)

/-- decodeString from src/bencode.ts. The digit prefix is
`data.subarray(start, ind)`; when no colon exists, `ind` is -1 and
`subarray(start, -1)` drops exactly the final byte of the array, while the
value slice `subarray(ind + 1, ind + length + 1)` becomes
`subarray(0, length)` — both branches are written out below. parseInt must
produce a nonnegative number, otherwise the Malformed-string error is
thrown. -/
def decodeStringF (data : List Nat) (start : Nat) : DRes (List Nat) :=
  match jsIndexOf data 58 start with
  | some ind =>
    match jsParseInt ((data.take ind).drop start) with
    | none => .err "Failed to bdecode. Malformed string"
    | some len =>
      if len < 0 then .err "Failed to bdecode. Malformed string"
      else .ok (ind + len.toNat + 1) ((data.take (ind + len.toNat + 1)).drop (ind + 1))
  | none =>
    match jsParseInt ((data.drop start).dropLast) with
    | none => .err "Failed to bdecode. Malformed string"
    | some len =>
      if len < 0 then .err "Failed to bdecode. Malformed string"
      else .ok len.toNat (data.take len.toNat)

/-- decodeInt from src/bencode.ts. Its while loop collects bytes until the
first END byte (101) strictly after start; indices past the end of the
array read undefined, which is never END, so when no END byte exists the
loop of the source never terminates. `Number(...)` of the collected digits
can be NaN, which the source returns as a value without complaint. -/
def decodeIntF (data : List Nat) (start : Nat) : DRes Benc :=
  if data[start]? ≠ some 105 then .err "Failed to bdecode. Malformed int"
  else
    match jsIndexOf data 101 (start + 1) with
    | none => .diverge
    | some e =>
      .ok (e + 1)
        (match jsNumber ((data.take e).drop (start + 1)) with
          | some v => .int v
          | none => .nanum)

/-- Mode of the combined decoder: the dispatching decode of the source, or
the interior of the while loop of decodeList or decodeDict with its
accumulator. A single fuel-indexed function keeps the recursion structural;
one unit of fuel is consumed per dispatch and per loop iteration. -/
inductive DMode where
  | top
  | listLoop (acc : BList)
  | dictLoop (acc : BDict)

/-- `list.push(value)`. -/
def BList.push : BList → Benc → BList
  | .nil, x => .cons x .nil
  | .cons h tl, x => .cons h (tl.push x)

/-- Concatenation of embedded lists. -/
def BList.appendL : BList → BList → BList
  | .nil, e => e
  | .cons h tl, e => .cons h (BList.appendL tl e)

/-- `dict[key] = value` on a plain object: overwrite the value at an
existing key, otherwise append the new entry. -/
def BDict.setKey : BDict → List Nat → Benc → BDict
  | .nil, k, v => .cons k v .nil
  | .cons k2 v2 tl, k, v =>
    if k2 = k then .cons k2 v tl else .cons k2 v2 (BDict.setKey tl k v)

/-- decode, decodeList and decodeDict from src/bencode.ts, fused into one
fuel-indexed function. In top mode the switch on `data[start]` dispatches
on bytes 100 (d), 108 (l), 105 (i) and defaults to decodeString (also when
the index is out of range); the Malformed-list and Malformed-dictionary
guards of decodeList/decodeDict are vacuously satisfied on entry from the
switch, which just matched the byte. In the loop modes the guard
`data[n] !== END` keeps iterating whenever the byte is absent or differs
from 101; decodeDict reads a byte-string key (decoded to a string by
td.decode, the identity in our representation) and then a value. -/
def decodeGo : Nat → DMode → List Nat → Nat → DRes Benc
  | 0, _, _, _ => .diverge
  | fuel + 1, .top, data, start =>
    if data[start]? = some 100 then decodeGo fuel (.dictLoop .nil) data (start + 1)
    else if data[start]? = some 108 then decodeGo fuel (.listLoop .nil) data (start + 1)
    else if data[start]? = some 105 then decodeIntF data start
    else (decodeStringF data start).mapVal .bytes
  | fuel + 1, .listLoop acc, data, n =>
    if data[n]? = some 101 then .ok (n + 1) (.list acc)
    else
      match decodeGo fuel .top data n with
      | .ok n2 v => decodeGo fuel (.listLoop (acc.push v)) data n2
      | .err m => .err m
      | .diverge => .diverge
  | fuel + 1, .dictLoop acc, data, n =>
    if data[n]? = some 101 then .ok (n + 1) (.dict acc)
    else
      match decodeStringF data n with
      | .err m => .err m
      | .diverge => .diverge
      | .ok n2 keyBytes =>
        match decodeGo fuel .top data n2 with
        | .ok n3 v => decodeGo fuel (.dictLoop (acc.setKey keyBytes v)) data n3
        | .err m => .err m
        | .diverge => .diverge

/-- decode from src/bencode.ts (entry point of the mutual recursion). -/
def decodeF (fuel : Nat) (data : List Nat) (start : Nat) : DRes Benc :=
  decodeGo fuel .top data start

/-- bdecode from src/bencode.ts returns `decode(data, 0)[1]`, the value
without the final position. -/
def bdecodeF (fuel : Nat) (data : List Nat) : DRes Benc :=
  match decodeF fuel data 0 with
  | .ok _ v => .ok 0 v
  | .err m => .err m
  | .diverge => .diverge

mutual
/-- Fuel that suffices to decode the encoding of a value: one unit per
dispatch, per loop iteration and per closing END check. -/
def costB : Benc → Nat
  | .bytes _ => 1
  | .str _ => 1
  | .int _ => 1
  | .nanum => 1
  | .list l => 1 + costL l
  | .dict d => 1 + costD d
  | .mapd m => 1 + costD m
/-- Fuel for a list loop. -/
def costL : BList → Nat
  | .nil => 1
  | .cons x tl => 1 + costB x + costL tl
/-- Fuel for a dictionary loop. -/
def costD : BDict → Nat
  | .nil => 1
  | .cons _ v tl => 1 + costB v + costD tl
end

/-- Lexicographic strict order on byte-string keys. -/
def keyLt : List Nat → List Nat → Bool
  | [], [] => false
  | [], _ :: _ => true
  | _ :: _, [] => false
  | x :: xs, y :: ys => x < y || (x = y && keyLt xs ys)

/-- The head key of a dictionary is below its immediate successor (or the
dictionary has at most one entry). -/
def firstKeyGt (k : List Nat) : BDict → Bool
  | .nil => true
  | .cons k2 _ _ => keyLt k k2

/-- Keys strictly sorted along the dictionary. -/
def sortedKeysD : BDict → Bool
  | .nil => true
  | .cons k _ tl => firstKeyGt k tl && sortedKeysD tl

/-- k differs from every key of the dictionary. -/
def keyFresh (k : List Nat) : BDict → Bool
  | .nil => true
  | .cons k2 _ tl => (if k2 = k then false else keyFresh k tl)

/-- Every key of the first dictionary differs from every key of the
second. -/
def allFresh : BDict → BDict → Bool
  | .nil, _ => true
  | .cons k _ tl, acc => keyFresh k acc && allFresh tl acc

/-- Concatenation of dictionaries. -/
def BDict.appendD : BDict → BDict → BDict
  | .nil, e => e
  | .cons k v tl, e => .cons k v (BDict.appendD tl e)

mutual
/-- The values on which the round trip can be stated: no native strings
(they decode back as byte strings), no NaN (NaN is not equal to itself),
no Maps (they decode back as plain objects), and every dictionary with
strictly sorted keys. -/
def goodB : Benc → Bool
  | .bytes _ => true
  | .str _ => false
  | .int _ => true
  | .nanum => false
  | .list l => goodL l
  | .dict d => sortedKeysD d && goodD d
  | .mapd _ => false
/-- Goodness of list items. -/
def goodL : BList → Bool
  | .nil => true
  | .cons x tl => goodB x && goodL tl
/-- Goodness of dictionary values. -/
def goodD : BDict → Bool
  | .nil => true
  | .cons _ v tl => goodB v && goodD tl
end

end Bencode

/-! # Theorems -/

/-! ## Digit-string and JavaScript-number lemmas -/

theorem toSigned32_of_lt (x : Int) (h0 : 0 ≤ x) (h : x < 2 ^ 31) : toSigned32 x = x := by
  unfold toSigned32
  rw [Int.emod_eq_of_lt (by omega) (by omega)]
  omega

theorem natDigitsAux_mem_lt {fuel n d : Nat} (h : d ∈ natDigitsAux fuel n) : d < 10 := by
  induction fuel generalizing n with
  | zero => simp [natDigitsAux] at h
  | succ fuel ih =>
    unfold natDigitsAux at h
    by_cases h10 : n < 10
    · simp only [h10, if_true, List.mem_singleton] at h
      omega
    · simp only [h10, if_false, List.mem_append, List.mem_singleton] at h
      rcases h with h | h
      · exact ih h
      · omega

theorem natDigitsAux_ne_nil (fuel n : Nat) : natDigitsAux (fuel + 1) n ≠ [] := by
  unfold natDigitsAux
  by_cases h10 : n < 10 <;> simp [h10]

theorem natDigitsAux_foldl (fuel : Nat) :
    ∀ n a, n < 10 ^ fuel →
      (natDigitsAux fuel n).foldl (fun acc d => acc * 10 + d) a =
        a * 10 ^ (natDigitsAux fuel n).length + n := by
  induction fuel with
  | zero =>
    intro n a h
    simp only [natDigitsAux, List.foldl_nil, List.length_nil, pow_zero]
    omega
  | succ fuel ih =>
    intro n a h
    unfold natDigitsAux
    by_cases h10 : n < 10
    · simp only [h10, if_true, List.foldl_cons, List.foldl_nil, List.length_singleton, pow_one]
    · simp only [h10, if_false, List.foldl_append, List.foldl_cons, List.foldl_nil,
        List.length_append, List.length_singleton]
      have hdiv : n / 10 < 10 ^ fuel := by
        rw [Nat.div_lt_iff_lt_mul (by omega)]
        calc n < 10 ^ (fuel + 1) := h
        _ = 10 ^ fuel * 10 := by rw [pow_succ]
      rw [ih (n / 10) a hdiv]
      set L := (natDigitsAux fuel (n / 10)).length with hL
      rw [pow_succ, ← mul_assoc]
      set A := a * 10 ^ L with hA
      omega

theorem digitBytesToNat_natToDigitBytes (n : Nat) :
    digitBytesToNat (natToDigitBytes n) = n := by
  unfold digitBytesToNat natToDigitBytes
  rw [List.foldl_map]
  have h : n < 10 ^ (n + 1) := by
    calc n < 10 ^ n := Nat.lt_pow_self (by norm_num) n
    _ ≤ 10 ^ (n + 1) := Nat.pow_le_pow_right (by norm_num) (Nat.le_succ n)
  have := natDigitsAux_foldl (n + 1) n 0 h
  simpa using this

theorem mem_natToDigitBytes {c n : Nat} (h : c ∈ natToDigitBytes n) : 48 ≤ c ∧ c ≤ 57 := by
  unfold natToDigitBytes at h
  rw [List.mem_map] at h
  obtain ⟨d, hd, rfl⟩ := h
  have := natDigitsAux_mem_lt hd
  omega

theorem natToDigitBytes_ne_nil (n : Nat) : natToDigitBytes n ≠ [] := by
  unfold natToDigitBytes
  have := natDigitsAux_ne_nil n n
  simpa using this

theorem natToDigitBytes_cons (n : Nat) :
    ∃ c cs, natToDigitBytes n = c :: cs ∧ 48 ≤ c ∧ c ≤ 57 := by
  cases h : natToDigitBytes n with
  | nil => exact absurd h (natToDigitBytes_ne_nil n)
  | cons c cs =>
    have hc : c ∈ natToDigitBytes n := by rw [h]; simp
    exact ⟨c, cs, rfl, (mem_natToDigitBytes hc).1, (mem_natToDigitBytes hc).2⟩

theorem all_isDigitByte_natToDigitBytes (n : Nat) :
    (natToDigitBytes n).all isDigitByte = true := by
  rw [List.all_eq_true]
  intro c hc
  have := mem_natToDigitBytes hc
  unfold isDigitByte
  simp only [Bool.and_eq_true, decide_eq_true_eq]
  omega

theorem not_ws_of_ge {c : Nat} (h : 33 ≤ c) : isJsWhitespace c = false := by
  unfold isJsWhitespace
  simp only [Bool.or_eq_false_iff, decide_eq_false_iff_not]
  omega

theorem dropWhile_all_false {p : Nat → Bool} :
    ∀ {l : List Nat}, (∀ c ∈ l, p c = false) → l.dropWhile p = l
  | [], _ => rfl
  | c :: cs, h => by
    rw [List.dropWhile_cons, h c (by simp)]
    simp

theorem takeWhile_all_true {p : Nat → Bool} :
    ∀ {l : List Nat}, (∀ c ∈ l, p c = true) → l.takeWhile p = l
  | [], _ => rfl
  | c :: cs, h => by
    rw [List.takeWhile_cons, h c (by simp)]
    simp only [if_true]
    rw [takeWhile_all_true (fun c hc => h c (by simp [hc]))]

theorem jsTrim_of_no_ws {l : List Nat} (h : ∀ c ∈ l, isJsWhitespace c = false) :
    jsTrim l = l := by
  unfold jsTrim
  rw [dropWhile_all_false h,
    dropWhile_all_false (fun c hc => h c (List.mem_reverse.mp hc)),
    List.reverse_reverse]

theorem jsTrim_natToDigitBytes (n : Nat) : jsTrim (natToDigitBytes n) = natToDigitBytes n :=
  jsTrim_of_no_ws (fun c hc => not_ws_of_ge (by have := mem_natToDigitBytes hc; omega))

theorem jsNumber_natToDigitBytes (n : Nat) : jsNumber (natToDigitBytes n) = some (n : Int) := by
  unfold jsNumber
  rw [jsTrim_natToDigitBytes]
  obtain ⟨c, cs, hl, hc48, hc57⟩ := natToDigitBytes_cons n
  unfold jsNumberTrimmed
  rw [hl]
  rw [if_neg (by simp), if_neg (by simp; omega), if_neg (by simp; omega),
    if_pos (by rw [← hl]; exact all_isDigitByte_natToDigitBytes n)]
  rw [← hl, digitBytesToNat_natToDigitBytes]

theorem jsNumber_intToDigitBytes (i : Int) : jsNumber (intToDigitBytes i) = some i := by
  unfold intToDigitBytes
  by_cases h : i < 0
  · rw [if_pos h]
    unfold jsNumber
    have hnws : ∀ c ∈ 45 :: natToDigitBytes (-i).toNat, isJsWhitespace c = false := by
      intro c hc
      rcases List.mem_cons.mp hc with rfl | hc
      · exact not_ws_of_ge (by omega)
      · exact not_ws_of_ge (by have := mem_natToDigitBytes hc; omega)
    rw [jsTrim_of_no_ws hnws]
    unfold jsNumberTrimmed
    rw [if_neg (by simp), if_pos (by simp)]
    rw [if_pos (by
      constructor
      · simpa using natToDigitBytes_ne_nil (-i).toNat
      · simpa using all_isDigitByte_natToDigitBytes (-i).toNat)]
    simp only [List.drop_one, List.tail_cons]
    rw [digitBytesToNat_natToDigitBytes]
    congr 1
    omega
  · rw [if_neg h]
    rw [jsNumber_natToDigitBytes]
    congr 1
    omega

theorem jsParseInt_natToDigitBytes (n : Nat) : jsParseInt (natToDigitBytes n) = some (n : Int) := by
  unfold jsParseInt
  rw [dropWhile_all_false
    (fun c hc => not_ws_of_ge (by have := mem_natToDigitBytes hc; omega))]
  obtain ⟨c, cs, hl, hc48, hc57⟩ := natToDigitBytes_cons n
  unfold jsParseIntTrimmed
  rw [hl]
  rw [if_neg (by simp; omega), if_neg (by simp; omega)]
  have hall : (c :: cs).takeWhile isDigitByte = c :: cs := by
    apply takeWhile_all_true
    intro d hd
    rw [← hl] at hd
    have := mem_natToDigitBytes hd
    unfold isDigitByte
    simp only [Bool.and_eq_true, decide_eq_true_eq]
    omega
  rw [hall, if_neg (by simp), ← hl, digitBytesToNat_natToDigitBytes]

/-! ## Claim C8 : readInt / writeInt (src/_bytes.ts) -/

namespace Bytes

theorem beBytes_zero (v : Nat) : beBytes 0 v = [] := rfl

theorem beBytes_succ (k v : Nat) : beBytes (k + 1) v = beBytes k (v / 256) ++ [v % 256] := by
  unfold beBytes
  rw [List.range_succ, List.map_append]
  congr 1
  · apply List.map_congr_left
    intro i hi
    rw [List.mem_range] at hi
    have h1 : k + 1 - 1 - i = (k - 1 - i) + 1 := by omega
    rw [h1, pow_succ, Nat.div_div_eq_div_mul, Nat.mul_comm 256 (256 ^ (k - 1 - i))]
  · simp

theorem beBytes_length (k v : Nat) : (beBytes k v).length = k := by
  unfold beBytes
  simp

theorem writeIntAux_spec (k : Nat) :
    ∀ (off : Nat) (v : Nat) (arr : List Nat), off + k ≤ arr.length → v < 2 ^ 31 →
      writeIntAux k (v : Int) arr (off + k - 1) =
        arr.take off ++ beBytes k v ++ arr.drop (off + k) := by
  induction k with
  | zero =>
    intro off v arr _ _
    simp [writeIntAux, beBytes_zero, List.take_append_drop]
  | succ k ih =>
    intro off v arr hle hv
    have hoffk : off + (k + 1) - 1 = off + k := by omega
    rw [hoffk]
    unfold writeIntAux
    have htdiv : ((v : Int).tdiv 256) = ((v / 256 : Nat) : Int) := rfl
    have hemod : (((v : Int).emod 256).toNat) = v % 256 := by
      rw [show ((v : Int).emod 256) = ((v % 256 : Nat) : Int) from rfl]
      exact Int.toNat_natCast _
    have h32 : toSigned32 ((v / 256 : Nat) : Int) = ((v / 256 : Nat) : Int) :=
      toSigned32_of_lt _ (by positivity) (by
        have : v / 256 ≤ v := Nat.div_le_self v 256
        push_cast
        omega)
    rw [htdiv, h32, hemod]
    have hset : (arr.set (off + k) (v % 256)).length = arr.length := by simp
    have := ih off (v / 256) (arr.set (off + k) (v % 256))
      (by rw [hset]; omega) (lt_of_le_of_lt (Nat.div_le_self v 256) hv)
    rw [this]
    have hlt : off + k < arr.length := by omega
    rw [List.set_eq_take_cons_drop _ hlt]
    rw [beBytes_succ]
    have htake : (arr.take (off + k) ++ v % 256 :: arr.drop (off + k + 1)).take off =
        arr.take off := by
      rw [List.take_append_of_le_length (by simp; omega), List.take_take,
        Nat.min_eq_left (by omega)]
    have hdrop : (arr.take (off + k) ++ v % 256 :: arr.drop (off + k + 1)).drop (off + k) =
        v % 256 :: arr.drop (off + k + 1) :=
      List.drop_left' (by simp; omega)
    rw [htake, hdrop]
    simp [List.append_assoc, show off + (k + 1) = off + k + 1 by omega]

theorem readInt_beBytes (k : Nat) :
    ∀ v, v < 256 ^ k → v < 2 ^ 31 →
      (beBytes k v).foldl (fun (n : Int) (byte : Nat) => toSigned32 (n * 256) + (byte : Int)) 0 =
        (v : Int) := by
  induction k with
  | zero =>
    intro v hv _
    have h0 : v = 0 := by simpa using hv
    subst h0
    simp [beBytes_zero]
  | succ k ih =>
    intro v hv h31
    rw [beBytes_succ, List.foldl_append]
    have hdivk : v / 256 < 256 ^ k := by
      rw [Nat.div_lt_iff_lt_mul (by norm_num)]
      calc v < 256 ^ (k + 1) := hv
      _ = 256 ^ k * 256 := by rw [pow_succ]
    rw [ih (v / 256) hdivk (lt_of_le_of_lt (Nat.div_le_self v 256) h31)]
    rw [List.foldl_cons, List.foldl_nil]
    have h32 : toSigned32 (((v / 256 : Nat) : Int) * 256) = ((v / 256 : Nat) : Int) * 256 :=
      toSigned32_of_lt _ (by positivity) (by
        have h1 : v / 256 * 256 ≤ v := Nat.div_mul_le_self v 256
        push_cast
        omega)
    rw [h32]
    have hdm := Nat.div_add_mod v 256
    push_cast
    omega

/-- Claim C8, counterexample to the claim as stated: with n = 4 bytes and
v = 2 to the 31st (which is below 256 to the 4th), writeInt stores the
big-endian bytes but readInt reads them back as the NEGATIVE 32-bit value
-2 to the 31st, because the source accumulates with the JavaScript `<<`
operator, which wraps to a signed 32-bit integer — not an unsigned 64-bit
container. -/
theorem readInt_writeInt_counterexample :
    writeInt ((2 : Int) ^ 31) [0, 0, 0, 0] 4 0 = .ok [128, 0, 0, 0] ∧
    readInt [128, 0, 0, 0] 4 0 = -(2 ^ 31) ∧
    (-(2 ^ 31) : Int) ≠ 2 ^ 31 := by
  refine ⟨rfl, by decide, by decide⟩

/-- Claim C8 amended: for n ≤ 8, v below both 256 to the n and 2 to the 31,
and off + n within bounds, writeInt succeeds, stores exactly the low n
bytes of v big-endian at the offset (leaving the rest of the buffer
unchanged), and readInt reads v back. The bound 2 to the 31 (instead of
256 to the n alone) is forced by the counterexample above. -/
theorem readInt_writeInt_roundtrip (arr : List Nat) (n off v : Nat)
    (hn : n ≤ 8) (hv : v < 256 ^ n) (h31 : v < 2 ^ 31) (hb : off + n ≤ arr.length) :
    writeInt (v : Int) arr n off =
      .ok (arr.take off ++ beBytes n v ++ arr.drop (off + n)) ∧
    readInt (arr.take off ++ beBytes n v ++ arr.drop (off + n)) n off = (v : Int) := by
  constructor
  · unfold writeInt
    rw [if_neg (by omega)]
    rw [writeIntAux_spec n off v arr (by omega) h31]
  · unfold readInt
    have hdrop : (arr.take off ++ beBytes n v ++ arr.drop (off + n)).drop off =
        beBytes n v ++ arr.drop (off + n) := by
      rw [List.append_assoc]
      exact List.drop_left' (by simp; omega)
    rw [hdrop]
    have htake : (beBytes n v ++ arr.drop (off + n)).take n = beBytes n v :=
      List.take_left' (beBytes_length n v)
    rw [htake]
    exact readInt_beBytes n v hv h31

theorem readInt_writeInt_roundtrip_witness :
    writeInt 258 [7, 7, 7, 7] 2 1 = .ok [7, 1, 2, 7] ∧
    readInt [7, 1, 2, 7] 2 1 = 258 := by
  have h := readInt_writeInt_roundtrip [7, 7, 7, 7] 2 1 258
    (by norm_num) (by norm_num) (by norm_num) (by norm_num)
  exact h

/-! ## Claim C7 : encodeBinaryData / decodeBinaryData (src/_bytes.ts) -/

/-- Claim C7 (code bug evidence): encodeBinaryData writes a SINGLE hex
digit for escaped bytes below 16 (the source does not pad
`byte.toString(16)`), while decodeBinaryData always consumes two characters
after a percent sign; so the escape of byte 0 followed by the pass-through
byte 65 is the three characters "%0A", which decodes to the single byte 10,
not back to the input. The claimed two-digit escape of byte 10 would be
"%0a" (37, 48, 97); the code emits "%a" (37, 97). -/
theorem encodeBinaryData_low_byte_breaks_roundtrip :
    encodeBinaryData [0, 65] = [37, 48, 65] ∧
    decodeBinaryData (encodeBinaryData [0, 65]) = [10] ∧
    ([10] : List Nat) ≠ [0, 65] ∧
    encodeBinaryData [10] = [37, 97] := by
  refine ⟨rfl, rfl, by decide, rfl⟩

end Bytes

/-! ## Claims C1, C2 : piece / block validation (src/piece.ts) -/

namespace Piece

theorem pieceLength_le (n : Nat) (info : InfoDict) : pieceLength n info ≤ info.pieceLength := by
  rcases hl : info.layout with l | fs
  · simp only [pieceLength, hl]
    by_cases hc : n = info.piecesCount - 1 ∧ info.pieceLength ≠ 0 ∧ l % info.pieceLength ≠ 0
    · rw [if_pos hc]
      exact le_of_lt (Nat.mod_lt _ (by omega))
    · rw [if_neg hc]
  · simp only [pieceLength, hl]
    exact le_rfl

theorem pieceLength_of_ne {n : Nat} {info : InfoDict} (h : n ≠ info.piecesCount - 1) :
    pieceLength n info = info.pieceLength := by
  rcases hl : info.layout with l | fs
  · simp only [pieceLength, hl]
    rw [if_neg (by
      rintro ⟨heq, -⟩
      exact h heq)]
  · simp only [pieceLength, hl]

/-- Claim C1, counterexample to the claim as stated. First conjunct: the
request (index 0, offset 0, length 0) has length 0, which the claim says
must fail, yet validateRequestedBlock returns without error — the source
never checks `length > 0`. Second conjunct: on a multi-file InfoDict with
total length 40000 and pieceLength 32768 the effective length of the last
piece per the claim is 40000 mod 32768 = 7232, so a request reaching byte
32768 of that piece must fail; the code accepts it because `info.length`
is undefined for multi-file dicts and the last-piece modulus becomes NaN,
falling back to pieceLength. -/
theorem validateRequestedBlock_claim_counterexample :
    validateRequestedBlock ⟨32, 1, .single 32⟩ ⟨0, 0, 0⟩ = .ok () ∧
    validateRequestedBlock ⟨32768, 2, .multi [40000]⟩ ⟨1, 0, 32768⟩ = .ok () ∧
    (40000 : Nat) % 32768 = 7232 ∧ 32768 > 7232 := by
  refine ⟨rfl, rfl, by norm_num, by norm_num⟩

/-- Claim C1 amended: validateRequestedBlock returns without error exactly
when the index is in range and offset + length fits in the piece length the
code computes — for a single-file dict the last piece is length mod
pieceLength (pieceLength when the modulus is 0), while for a multi-file
dict every piece is pieceLength, since `info.length` is undefined there;
no positivity check on the requested length is performed. -/
theorem validateRequestedBlock_ok_iff (info : InfoDict) (msg : RequestMsg) :
    validateRequestedBlock info msg = .ok () ↔
      (msg.index < info.piecesCount ∧
        msg.offset + msg.length ≤ pieceLength msg.index info) := by
  unfold validateRequestedBlock
  by_cases hidx : msg.index ≥ info.piecesCount
  · rw [if_pos hidx]
    constructor
    · intro h
      exact absurd h (by simp)
    · rintro ⟨h1, -⟩
      omega
  · rw [if_neg hidx]
    push_neg at hidx
    show (if (msg.index = info.piecesCount - 1 ∧
          msg.offset + msg.length > pieceLength (info.piecesCount - 1) info) ∨
          msg.offset + msg.length > info.pieceLength then
        (Except.error "request message with invalid block length" : Except String Unit)
      else .ok ()) = .ok () ↔ _
    by_cases hcond : (msg.index = info.piecesCount - 1 ∧
        msg.offset + msg.length > pieceLength (info.piecesCount - 1) info) ∨
        msg.offset + msg.length > info.pieceLength
    · rw [if_pos hcond]
      constructor
      · intro h
        exact absurd h (by simp)
      · rintro ⟨h1, h2⟩
        rcases hcond with ⟨heq, hgt⟩ | hgt
        · rw [heq] at h2
          omega
        · have hle := pieceLength_le msg.index info
          omega
    · rw [if_neg hcond]
      push_neg at hcond
      constructor
      · intro _
        refine ⟨hidx, ?_⟩
        by_cases heq : msg.index = info.piecesCount - 1
        · rw [heq]
          exact hcond.1 heq
        · rw [pieceLength_of_ne heq]
          exact hcond.2
      · intro _
        rfl

/-- Claim C2 (code bug evidence): on the multi-file InfoDict with one file
of 40000 bytes and pieceLength 32768 (two pieces, true residual tail
40000 - 32768 = 7232), a piece message carrying the final block of the
final piece with the true residual length 7232 is REJECTED, while a full
16 KiB block at the same position is accepted — because `info.length` is
undefined for multi-file dicts, the last-piece length degrades to
pieceLength. The third conjunct shows the analogous single-file dict
accepts exactly the residual 7232, confirming the multi-file branch is the
slip. -/
theorem validateReceivedBlock_multi_file_divergence :
    validateReceivedBlock ⟨32768, 2, .multi [40000]⟩ ⟨1, 0, 7232⟩ =
      .error "piece message with invalid block length" ∧
    validateReceivedBlock ⟨32768, 2, .multi [40000]⟩ ⟨1, 0, 16384⟩ = .ok () ∧
    validateReceivedBlock ⟨32768, 2, .single 40000⟩ ⟨1, 0, 7232⟩ = .ok () := by
  refine ⟨rfl, rfl, rfl⟩

end Piece

/-! ## Claim C6 : bitfield message handling (src/torrent.ts) -/

namespace Peer

/-- Claim C6, counterexample to the claim as stated: a peer whose bitfield
was already set by a first bitfield message receives a second bitfield
message, and handleMessages silently accepts it and copies it over the peer
bitfield — no protocol violation is raised. The handler keeps no
received-bitfield flag at all. -/
theorem second_bitfield_silently_applied :
    (handleMessage 8 ⟨true, false, true, false, [0]⟩ (.bitfieldMsg [255])).bind
      (fun p => handleMessage 8 p (.bitfieldMsg [170])) =
      .ok ⟨true, false, true, false, [170]⟩ := rfl

/-- Claim C6 amended: EVERY bitfield message, first or subsequent, is
copied over the start of the peer bitfield (the handler is a pure function
of the current state and message, with no once-only tracking); the only
failure mode is the typed-array RangeError when the received bitfield is
longer than the local one. -/
theorem bitfield_always_copied (piecesCount : Nat) (peer : PeerState) (bf : List Nat)
    (h : bf.length ≤ peer.bitfield.length) :
    handleMessage piecesCount peer (.bitfieldMsg bf) =
      .ok { peer with bitfield := bf ++ peer.bitfield.drop bf.length } := by
  simp only [handleMessage, typedArraySet]
  rw [if_neg (Nat.not_lt.mpr h)]

theorem bitfield_always_copied_witness :
    handleMessage 8 ⟨true, false, true, false, [0, 0]⟩ (.bitfieldMsg [255]) =
      .ok ⟨true, false, true, false, [255, 0]⟩ :=
  bitfield_always_copied 8 ⟨true, false, true, false, [0, 0]⟩ [255] (by norm_num)

end Peer

/-! ## Claim C9 : compact peer round trip (src/server/tracker.ts and src/tracker.ts) -/

namespace Tracker

theorem splitDot_ne_nil : ∀ (s : List Nat), splitDot s ≠ []
  | [] => by simp [splitDot]
  | c :: cs => by
    simp only [splitDot]
    rcases hs : splitDot cs with _ | ⟨h, t⟩
    · simp
    · by_cases hc : c = 46 <;> simp [hc]

theorem splitDot_no_dot : ∀ {x : List Nat}, (∀ c ∈ x, c ≠ 46) → splitDot x = [x] := by
  intro x
  induction x with
  | nil => intro _; rfl
  | cons c cs ih =>
    intro h
    have hcs := ih (fun d hd => h d (by simp [hd]))
    simp only [splitDot, hcs]
    rw [if_neg (h c (by simp))]

theorem splitDot_sep : ∀ {x : List Nat} (rest : List Nat), (∀ c ∈ x, c ≠ 46) →
    splitDot (x ++ 46 :: rest) = x :: splitDot rest := by
  intro x
  induction x with
  | nil =>
    intro rest _
    rcases hs : splitDot rest with _ | ⟨h0, t0⟩
    · exact absurd hs (splitDot_ne_nil rest)
    · simp only [List.nil_append, splitDot, hs]
      simp
  | cons c cs ih =>
    intro rest h
    have hcs := ih rest (fun d hd => h d (by simp [hd]))
    simp only [List.cons_append, splitDot, List.append_eq, hcs]
    rw [if_neg (h c (by simp))]

theorem natToDigitBytes_no_dot (n : Nat) : ∀ c ∈ natToDigitBytes n, c ≠ 46 := by
  intro c hc
  have := mem_natToDigitBytes hc
  omega

theorem numberToByte_digits {a : Nat} (ha : a < 256) :
    numberToByte (natToDigitBytes a) = a := by
  unfold numberToByte
  rw [jsNumber_natToDigitBytes]
  show (((a : Int)).emod 256).toNat = a
  rw [show ((a : Int).emod 256) = ((a % 256 : Nat) : Int) from rfl, Int.toNat_natCast]
  omega

theorem encodePeerBytes_eq {p : AnnouncePeer} {a b c d : Nat} (hip : p.ip = joinIp a b c d)
    (ha : a < 256) (hb : b < 256) (hc : c < 256) (hd : d < 256) (hp : p.port < 65536) :
    encodePeerBytes p = [a, b, c, d, p.port / 256, p.port % 256] := by
  have hsplit : splitDot (joinIp a b c d) =
      [natToDigitBytes a, natToDigitBytes b, natToDigitBytes c, natToDigitBytes d] := by
    unfold joinIp
    rw [show natToDigitBytes a ++ [46] ++ natToDigitBytes b ++ [46] ++ natToDigitBytes c ++
        [46] ++ natToDigitBytes d =
        natToDigitBytes a ++ 46 :: (natToDigitBytes b ++ 46 ::
          (natToDigitBytes c ++ 46 :: natToDigitBytes d)) by
      simp [List.append_assoc]]
    rw [splitDot_sep _ (natToDigitBytes_no_dot a), splitDot_sep _ (natToDigitBytes_no_dot b),
      splitDot_sep _ (natToDigitBytes_no_dot c), splitDot_no_dot (natToDigitBytes_no_dot d)]
  simp only [encodePeerBytes, hip, hsplit, List.getD_cons_zero, List.getD_cons_succ]
  rw [numberToByte_digits ha, numberToByte_digits hb, numberToByte_digits hc,
    numberToByte_digits hd, Nat.mod_eq_of_lt (by omega)]

theorem readCompactPeers_chunk (a b c d q1 q2 : Nat) (t : List Nat) :
    readCompactPeers (a :: b :: c :: d :: q1 :: q2 :: t) =
      { ip := joinIp a b c d, port := q1 * 256 + q2 } :: readCompactPeers t := rfl

theorem compactPeers_cons (p : AnnouncePeer) (rest : List AnnouncePeer) :
    compactPeers (p :: rest) = encodePeerBytes p ++ compactPeers rest := rfl

/-- Claim C9: for peers whose ip strings are canonical dotted quads with
components below 256 and ports below 65536, the compact encoding of the
tracker server is exactly 6 bytes per peer, and readCompactPeers of the
tracker client restores the same (ip, port) pairs in order. A canonical
dotted quad is exactly what `Uint8Array.prototype.join(".")` produces on
the way back (decimal component values, no leading zeros). -/
theorem compact_peers_roundtrip (peers : List AnnouncePeer)
    (h : ∀ p ∈ peers, ∃ a b c d, a < 256 ∧ b < 256 ∧ c < 256 ∧ d < 256 ∧
      p.port < 65536 ∧ p.ip = joinIp a b c d) :
    (compactPeers peers).length = 6 * peers.length ∧
    readCompactPeers (compactPeers peers) = peers := by
  induction peers with
  | nil => exact ⟨rfl, rfl⟩
  | cons p rest ih =>
    obtain ⟨hrlen, hrdec⟩ := ih (fun q hq => h q (by simp [hq]))
    obtain ⟨a, b, c, d, ha, hb, hc, hd, hp, hip⟩ := h p (by simp)
    have henc := encodePeerBytes_eq hip ha hb hc hd hp
    constructor
    · rw [compactPeers_cons, List.length_append, henc, hrlen]
      simp
      omega
    · rw [compactPeers_cons, henc]
      rw [show ([a, b, c, d, p.port / 256, p.port % 256] ++ compactPeers rest) =
        a :: b :: c :: d :: p.port / 256 :: p.port % 256 :: compactPeers rest from rfl]
      rw [readCompactPeers_chunk, hrdec]
      rw [show p.port / 256 * 256 + p.port % 256 = p.port by omega]
      rw [← hip]

theorem compact_peers_roundtrip_witness :
    (compactPeers [{ ip := joinIp 127 0 0 1, port := 8080 }]).length = 6 * 1 ∧
    readCompactPeers (compactPeers [{ ip := joinIp 127 0 0 1, port := 8080 }]) =
      [{ ip := joinIp 127 0 0 1, port := 8080 }] := by
  have h := compact_peers_roundtrip [{ ip := joinIp 127 0 0 1, port := 8080 }]
    (by
      intro p hp
      simp only [List.mem_singleton] at hp
      subst hp
      exact ⟨127, 0, 0, 1, by norm_num, by norm_num, by norm_num, by norm_num,
        by norm_num, rfl⟩)
  exact h

/-! ## Claim C10 : scrape handling (src/server/in_memory_tracker.ts) -/

theorem scrapeLoop_reject {m : TrackerState} :
    ∀ {hashes : List String} {acc : List ScrapeEntry},
      (∃ h ∈ hashes, lookupA m h = none) →
      scrapeLoop m hashes acc = .reject "invalid info_hash" := by
  intro hashes
  induction hashes with
  | nil =>
    rintro acc ⟨h, hmem, -⟩
    simp at hmem
  | cons h1 rest ih =>
    rintro acc ⟨h, hmem, hnone⟩
    rcases hl : lookupA m h1 with _ | fi
    · simp only [scrapeLoop, hl]
    · simp only [scrapeLoop, hl]
      apply ih
      rcases List.mem_cons.mp hmem with rfl | hmem2
      · rw [hl] at hnone
        cases hnone
      · exact ⟨h, hmem2, hnone⟩

theorem lookupA_self_of_nodup :
    ∀ {m : TrackerState}, (m.map Prod.fst).Nodup →
      ∀ kv ∈ m, lookupA m kv.1 = some kv.2 := by
  intro m
  induction m with
  | nil =>
    intro _ kv hkv
    simp at hkv
  | cons e rest ih =>
    intro hnd kv hkv
    simp only [List.map_cons, List.nodup_cons] at hnd
    rcases List.mem_cons.mp hkv with rfl | hmem
    · unfold lookupA
      rw [if_pos rfl]
    · unfold lookupA
      by_cases he : e.1 = kv.1
      · exact absurd (by rw [he]; exact List.mem_map_of_mem Prod.fst hmem) hnd.1
      · rw [if_neg he]
        exact ih hnd.2 kv hmem

theorem scrapeLoop_all {m : TrackerState} :
    ∀ (l : TrackerState) (acc : List ScrapeEntry),
      (∀ kv ∈ l, lookupA m kv.1 = some kv.2) →
      scrapeLoop m (l.map Prod.fst) acc = .respond (acc ++ l.map (fun kv => entryOf kv.2)) := by
  intro l
  induction l with
  | nil =>
    intro acc _
    simp [scrapeLoop]
  | cons kv rest ih =>
    intro acc hl
    simp only [List.map_cons, scrapeLoop, hl kv (by simp)]
    rw [ih (acc ++ [entryOf kv.2]) (fun kv2 hkv2 => hl kv2 (by simp [hkv2]))]
    simp [List.append_assoc]

theorem scrapeLoop_known {m : TrackerState} :
    ∀ {hashes : List String} {acc : List ScrapeEntry},
      (∀ h ∈ hashes, (lookupA m h).isSome) →
      scrapeLoop m hashes acc =
        .respond (acc ++ hashes.map
          (fun h => entryOf ((lookupA m h).getD ⟨"", 0, 0, 0, []⟩))) := by
  intro hashes
  induction hashes with
  | nil =>
    intro acc _
    simp [scrapeLoop]
  | cons h1 rest ih =>
    intro acc hall
    have h1some := hall h1 (by simp)
    rcases hl : lookupA m h1 with _ | fi
    · rw [hl] at h1some
      cases h1some
    · simp only [scrapeLoop, hl]
      rw [ih (fun h hh => hall h (by simp [hh]))]
      simp [hl, List.append_assoc]

/-- Claim C10: a scrape whose info-hash list contains any hash with no
swarm entry is rejected whole with reason "invalid info_hash" (no counters
are returned for the known hashes of the same request); an empty info-hash
list returns the counters of ALL swarms in table order; and a nonempty list
of entirely known hashes returns exactly the counters of those hashes in
request order. -/
theorem handleScrape_spec :
    (∀ (hashes : List String) (m : TrackerState),
        (∃ h ∈ hashes, lookupA m h = none) →
        handleScrape hashes m = .reject "invalid info_hash") ∧
    (∀ m : TrackerState, (m.map Prod.fst).Nodup →
        handleScrape [] m = .respond (m.map (fun kv => entryOf kv.2))) ∧
    (∀ (hashes : List String) (m : TrackerState), hashes ≠ [] →
        (∀ h ∈ hashes, (lookupA m h).isSome) →
        handleScrape hashes m = .respond (hashes.map
          (fun h => entryOf ((lookupA m h).getD ⟨"", 0, 0, 0, []⟩)))) := by
  refine ⟨?_, ?_, ?_⟩
  · rintro hashes m ⟨h, hmem, hnone⟩
    rcases hashes with _ | ⟨h1, rest⟩
    · simp at hmem
    · show scrapeLoop m (h1 :: rest) [] = _
      exact scrapeLoop_reject ⟨h, hmem, hnone⟩
  · intro m hnd
    show scrapeLoop m (m.map Prod.fst) [] = _
    have := scrapeLoop_all (m := m) m [] (lookupA_self_of_nodup hnd)
    simpa using this
  · intro hashes m hne hall
    rcases hashes with _ | ⟨h1, rest⟩
    · exact absurd rfl hne
    · show scrapeLoop m (h1 :: rest) [] = _
      have := @scrapeLoop_known m (h1 :: rest) [] hall
      simpa using this

theorem handleScrape_spec_witness :
    handleScrape ["a"] [] = .reject "invalid info_hash" :=
  handleScrape_spec.1 ["a"] [] ⟨"a", by simp, rfl⟩

/-! ## Claim C5 : tracker swarm counters (src/server/in_memory_tracker.ts) -/

theorem lookupA_prop {α : Type} {P : α → Prop} :
    ∀ {l : List (String × α)} {k : String} {v : α},
      lookupA l k = some v → (∀ kv ∈ l, P kv.2) → P v := by
  intro l
  induction l with
  | nil =>
    intro k v h _
    cases h
  | cons e rest ih =>
    intro k v h hall
    unfold lookupA at h
    by_cases he : e.1 = k
    · rw [if_pos he] at h
      injection h with h2
      rw [← h2]
      exact hall e (by simp)
    · rw [if_neg he] at h
      exact ih h (fun kv hkv => hall kv (by simp [hkv]))

theorem forall_values_setA {α : Type} {P : α → Prop} :
    ∀ {l : List (String × α)} {k : String} {v : α},
      (∀ kv ∈ l, P kv.2) → P v → ∀ kv ∈ setA l k v, P kv.2 := by
  intro l
  induction l with
  | nil =>
    intro k v _ hv kv hkv
    simp only [setA, List.mem_singleton] at hkv
    rw [hkv]
    exact hv
  | cons e rest ih =>
    intro k v hall hv kv hkv
    unfold setA at hkv
    by_cases he : e.1 = k
    · rw [if_pos he] at hkv
      rcases List.mem_cons.mp hkv with heq | hm
      · rw [heq]
        exact hv
      · exact hall kv (by simp [hm])
    · rw [if_neg he] at hkv
      rcases List.mem_cons.mp hkv with heq | hm
      · rw [heq]
        exact hall e (by simp)
      · exact ih (fun kv2 h2 => hall kv2 (by simp [h2])) hv kv hm

theorem length_setA_none {α : Type} :
    ∀ {l : List (String × α)} {k : String} (v : α),
      lookupA l k = none → (setA l k v).length = l.length + 1 := by
  intro l
  induction l with
  | nil =>
    intro k v _
    rfl
  | cons e rest ih =>
    intro k v h
    unfold lookupA at h
    unfold setA
    by_cases he : e.1 = k
    · rw [if_pos he] at h
      cases h
    · rw [if_neg he] at h
      rw [if_neg he]
      simp [ih v h]

theorem length_setA_some {α : Type} :
    ∀ {l : List (String × α)} {k : String} {w : α} (v : α),
      lookupA l k = some w → (setA l k v).length = l.length := by
  intro l
  induction l with
  | nil =>
    intro k w v h
    cases h
  | cons e rest ih =>
    intro k w v h
    unfold lookupA at h
    unfold setA
    by_cases he : e.1 = k
    · rw [if_pos he]
      rfl
    · rw [if_neg he] at h
      rw [if_neg he]
      simp [ih v h]

theorem length_removeA_some {α : Type} :
    ∀ {l : List (String × α)} {k : String} {w : α},
      lookupA l k = some w → l.length = (removeA l k).length + 1 := by
  intro l
  induction l with
  | nil =>
    intro k w h
    cases h
  | cons e rest ih =>
    intro k w h
    unfold lookupA at h
    unfold removeA
    by_cases he : e.1 = k
    · rw [if_pos he]
      rfl
    · rw [if_neg he] at h
      rw [if_neg he]
      simp [ih h]

theorem lookupA_setA_self {α : Type} :
    ∀ (l : List (String × α)) (k : String) (v : α), lookupA (setA l k v) k = some v := by
  intro l
  induction l with
  | nil =>
    intro k v
    simp [setA, lookupA]
  | cons e rest ih =>
    intro k v
    unfold setA
    by_cases he : e.1 = k
    · rw [if_pos he]
      unfold lookupA
      rw [if_pos he]
    · rw [if_neg he]
      unfold lookupA
      rw [if_neg he]
      exact ih k v

theorem lookupA_setA_ne {α : Type} :
    ∀ (l : List (String × α)) (k : String) (v : α) (k2 : String), k2 ≠ k →
      lookupA (setA l k v) k2 = lookupA l k2 := by
  intro l
  induction l with
  | nil =>
    intro k v k2 hne
    simp only [setA, lookupA]
    rw [if_neg (by simpa using fun h => hne h.symm)]
  | cons e rest ih =>
    intro k v k2 hne
    unfold setA
    by_cases he : e.1 = k
    · rw [if_pos he]
      unfold lookupA
      rw [if_neg (by rw [he]; exact fun h => hne h.symm), if_neg (by rw [he]; exact fun h => hne h.symm)]
    · rw [if_neg he]
      unfold lookupA
      by_cases he2 : e.1 = k2
      · rw [if_pos he2, if_pos he2]
      · rw [if_neg he2, if_neg he2]
        exact ih k v k2 hne

theorem announceUpsert_inv (now : Nat) (req : AnnounceReq) (pid : String) (fi0 : FileInfo)
    (h : fi0.complete + fi0.incomplete = (fi0.peers.length : Int)) :
    (announceUpsert now req pid fi0).complete + (announceUpsert now req pid fi0).incomplete =
      ((announceUpsert now req pid fi0).peers.length : Int) := by
  rcases hl : lookupA fi0.peers pid with _ | requester
  · have hlen := length_setA_none (l := fi0.peers) (k := pid)
      ({ state := evaluateState req, lastUpdated := now } : TrackedPeer) hl
    simp only [announceUpsert, hl]
    by_cases hst : evaluateState req = PeerKind.leecher
    · rw [if_pos hst, if_pos hst, hlen]
      push_cast
      omega
    · rw [if_neg hst, if_neg hst, hlen]
      push_cast
      omega
  · have hlen := length_setA_some (l := fi0.peers) (k := pid)
      ({ state := evaluateState req, lastUpdated := now } : TrackedPeer) hl
    simp only [announceUpsert, hl]
    by_cases htr : requester.state = PeerKind.leecher ∧ evaluateState req = PeerKind.seeder
    · rw [if_pos htr]
      simp only [hlen]
      omega
    · rw [if_neg htr]
      simp only [hlen]
      omega

theorem announceUpsert_downloaded (now : Nat) (req : AnnounceReq) (pid : String)
    (fi0 : FileInfo) :
    fi0.downloaded ≤ (announceUpsert now req pid fi0).downloaded := by
  rcases hl : lookupA fi0.peers pid with _ | requester
  · simp [announceUpsert, hl]
  · simp only [announceUpsert, hl]
    by_cases htr : requester.state = PeerKind.leecher ∧ evaluateState req = PeerKind.seeder
    · rw [if_pos htr]
      simp
    · rw [if_neg htr]

theorem announceStopped_inv (req : AnnounceReq) (pid : String) (fi1 : FileInfo)
    (h : fi1.complete + fi1.incomplete = (fi1.peers.length : Int)) :
    (announceStopped req pid fi1).complete + (announceStopped req pid fi1).incomplete =
      ((announceStopped req pid fi1).peers.length : Int) := by
  by_cases hev : req.event = AnnounceEvent.stopped
  · rcases hl : lookupA fi1.peers pid with _ | peer
    · simpa [announceStopped, hev, hl] using h
    · have hlen := length_removeA_some hl
      simp only [announceStopped, hev, if_true, hl]
      by_cases hs : peer.state = PeerKind.seeder
      · rw [if_pos hs, if_pos hs]
        omega
      · rw [if_neg hs, if_neg hs]
        omega
  · simpa [announceStopped, hev] using h

theorem announceStopped_downloaded (req : AnnounceReq) (pid : String) (fi1 : FileInfo) :
    (announceStopped req pid fi1).downloaded = fi1.downloaded := by
  by_cases hev : req.event = AnnounceEvent.stopped
  · rcases hl : lookupA fi1.peers pid with _ | peer <;> simp [announceStopped, hev, hl]
  · simp [announceStopped, hev]

theorem handleAnnounce_inv (now : Nat) (req : AnnounceReq) {m : TrackerState}
    (hm : ∀ kv ∈ m, kv.2.complete + kv.2.incomplete = (kv.2.peers.length : Int)) :
    ∀ kv ∈ handleAnnounce now req m,
      kv.2.complete + kv.2.incomplete = (kv.2.peers.length : Int) := by
  intro kv hkv
  simp only [handleAnnounce] at hkv
  refine forall_values_setA
    (P := fun fi => fi.complete + fi.incomplete = (fi.peers.length : Int)) hm ?_ kv hkv
  apply announceStopped_inv
  apply announceUpsert_inv
  rcases hl : lookupA m req.infoHash with _ | fi
  · simp
  · simp only [Option.getD_some]
    exact lookupA_prop (P := fun fi => fi.complete + fi.incomplete = (fi.peers.length : Int))
      hl hm

theorem handleAnnounce_downloaded (now : Nat) (req : AnnounceReq) {m : TrackerState}
    {k : String} {fi : FileInfo} (h : lookupA m k = some fi) :
    ∃ fi2, lookupA (handleAnnounce now req m) k = some fi2 ∧
      fi.downloaded ≤ fi2.downloaded := by
  simp only [handleAnnounce]
  by_cases hk : k = req.infoHash
  · subst hk
    refine ⟨_, lookupA_setA_self _ _ _, ?_⟩
    rw [h, Option.getD_some, announceStopped_downloaded]
    exact announceUpsert_downloaded _ _ _ _
  · exact ⟨fi, by rw [lookupA_setA_ne _ _ _ _ hk]; exact h, le_rfl⟩

theorem sweepPeers_count (now : Nat) :
    ∀ ps : List (String × TrackedPeer),
      ((sweepPeers now ps).1.length : Int) + (sweepPeers now ps).2.1 +
          (sweepPeers now ps).2.2 = (ps.length : Int) ∧
        0 ≤ (sweepPeers now ps).2.1 ∧ 0 ≤ (sweepPeers now ps).2.2 := by
  intro ps
  induction ps with
  | nil => simp [sweepPeers]
  | cons e rest ih =>
    obtain ⟨h1, h2, h3⟩ := ih
    by_cases hstale : now - e.2.lastUpdated > CLEANUP_INTERVAL
    · simp only [sweepPeers, if_pos hstale]
      by_cases hs : e.2.state = PeerKind.seeder
      · rw [if_pos hs, if_pos hs]
        refine ⟨by simp only [List.length_cons]; push_cast; omega, by omega, by omega⟩
      · rw [if_neg hs, if_neg hs]
        refine ⟨by simp only [List.length_cons]; push_cast; omega, by omega, by omega⟩
    · simp only [sweepPeers, if_neg hstale]
      refine ⟨by simp only [List.length_cons, List.length_cons]; push_cast; omega,
        by omega, by omega⟩

theorem sweepFile_inv (now : Nat) (fi : FileInfo)
    (h : fi.complete + fi.incomplete = (fi.peers.length : Int)) :
    (sweepFile now fi).complete + (sweepFile now fi).incomplete =
      ((sweepFile now fi).peers.length : Int) := by
  obtain ⟨h1, h2, h3⟩ := sweepPeers_count now fi.peers
  simp only [sweepFile]
  omega

theorem sweepFile_downloaded (now : Nat) (fi : FileInfo) :
    (sweepFile now fi).downloaded = fi.downloaded := rfl

theorem lookupA_map_values (f : FileInfo → FileInfo) :
    ∀ (l : TrackerState) (k : String),
      lookupA (l.map (fun kv => (kv.1, f kv.2))) k = (lookupA l k).map f := by
  intro l
  induction l with
  | nil =>
    intro k
    rfl
  | cons e rest ih =>
    intro k
    by_cases he : e.1 = k <;> simp [lookupA, he, ih k]

theorem runStep_inv (st : TrackerStep) {m : TrackerState}
    (hm : ∀ kv ∈ m, kv.2.complete + kv.2.incomplete = (kv.2.peers.length : Int)) :
    ∀ kv ∈ runStep m st, kv.2.complete + kv.2.incomplete = (kv.2.peers.length : Int) := by
  cases st with
  | announce now req => exact handleAnnounce_inv now req hm
  | sweep now =>
    intro kv hkv
    simp only [runStep, sweepAndDelete, List.mem_map] at hkv
    obtain ⟨kv0, hkv0, rfl⟩ := hkv
    exact sweepFile_inv now kv0.2 (hm kv0 hkv0)

theorem runStep_mono (st : TrackerStep) {m : TrackerState} {k : String} {fi : FileInfo}
    (h : lookupA m k = some fi) :
    ∃ fi2, lookupA (runStep m st) k = some fi2 ∧ fi.downloaded ≤ fi2.downloaded := by
  cases st with
  | announce now req => exact handleAnnounce_downloaded now req h
  | sweep now =>
    refine ⟨sweepFile now fi, ?_, le_of_eq (sweepFile_downloaded now fi).symm⟩
    show lookupA (sweepAndDelete now m) k = _
    unfold sweepAndDelete
    rw [lookupA_map_values, h]
    rfl

theorem foldl_runStep_inv :
    ∀ (steps : List TrackerStep) (m : TrackerState),
      (∀ kv ∈ m, kv.2.complete + kv.2.incomplete = (kv.2.peers.length : Int)) →
      ∀ kv ∈ steps.foldl runStep m,
        kv.2.complete + kv.2.incomplete = (kv.2.peers.length : Int) := by
  intro steps
  induction steps with
  | nil =>
    intro m hm
    exact hm
  | cons st rest ih =>
    intro m hm
    exact ih (runStep m st) (runStep_inv st hm)

theorem foldl_runStep_mono :
    ∀ (more : List TrackerStep) (m : TrackerState) (k : String) (fi : FileInfo),
      lookupA m k = some fi →
      ∃ fi2, lookupA (more.foldl runStep m) k = some fi2 ∧ fi.downloaded ≤ fi2.downloaded := by
  intro more
  induction more with
  | nil =>
    intro m k fi h
    exact ⟨fi, h, le_rfl⟩
  | cons st rest ih =>
    intro m k fi h
    obtain ⟨fi1, h1, hle1⟩ := runStep_mono st h
    obtain ⟨fi2, h2, hle2⟩ := ih (runStep m st) k fi1 h1
    exact ⟨fi2, h2, le_trans hle1 hle2⟩

/-- Claim C5: for every swarm of the in-memory tracker reachable from the
empty table by any sequence of announces and TTL sweeps, the counter
equation complete + incomplete = |peers| holds, and along any extension of
a run the downloaded counter of every swarm is monotonically
non-decreasing. -/
theorem swarm_counters_invariant :
    (∀ (steps : List TrackerStep) (k : String) (fi : FileInfo),
        lookupA (runSteps steps) k = some fi →
        fi.complete + fi.incomplete = (fi.peers.length : Int)) ∧
    (∀ (steps more : List TrackerStep) (k : String) (fi fi2 : FileInfo),
        lookupA (runSteps steps) k = some fi →
        lookupA (runSteps (steps ++ more)) k = some fi2 →
        fi.downloaded ≤ fi2.downloaded) := by
  constructor
  · intro steps k fi h
    rw [show runSteps steps = steps.foldl runStep [] from rfl] at h
    have hwf := foldl_runStep_inv steps [] (by intro kv hkv; simp at hkv)
    exact lookupA_prop (P := fun v => v.complete + v.incomplete = (v.peers.length : Int)) h hwf
  · intro steps more k fi fi2 h1 h2
    obtain ⟨fi3, hl3, hle⟩ := foldl_runStep_mono more (runSteps steps) k fi h1
    rw [show runSteps (steps ++ more) = more.foldl runStep (runSteps steps) by
      unfold runSteps
      rw [List.foldl_append]] at h2
    rw [hl3] at h2
    injection h2 with h2e
    rw [← h2e]
    exact hle

theorem swarm_counters_invariant_witness :
    (1 : Int) + 0 =
      (([("ip:1", ({ state := PeerKind.seeder, lastUpdated := 0 } : TrackedPeer))].length :
        Int)) :=
  swarm_counters_invariant.1
    [.announce 0 { infoHash := "h", ip := "ip", port := 1, left := 0, event := .started }] "h"
    { infoHash := "h", complete := 1, downloaded := 0, incomplete := 0,
      peers := [("ip:1", { state := PeerKind.seeder, lastUpdated := 0 })] }
    (by decide)

end Tracker

/-! ## Claims C3, C4 : the bencode codec (src/bencode.ts) -/

namespace Bencode

theorem getAt_append (pre rest : List Nat) : (pre ++ rest)[pre.length]? = rest[0]? := by
  rw [List.getElem?_append_right (le_refl pre.length)]
  simp

theorem firstIdxOf_skip {c : Nat} :
    ∀ {l1 : List Nat} (l2 : List Nat), (∀ x ∈ l1, x ≠ c) →
      firstIdxOf c (l1 ++ c :: l2) = some l1.length := by
  intro l1
  induction l1 with
  | nil =>
    intro l2 _
    simp [firstIdxOf]
  | cons x xs ih =>
    intro l2 h
    simp only [List.cons_append, firstIdxOf, List.append_eq]
    rw [if_neg (h x (by simp)), ih l2 (fun y hy => h y (by simp [hy]))]
    rfl

theorem firstIdxOf_none {c : Nat} :
    ∀ {l : List Nat}, (∀ x ∈ l, x ≠ c) → firstIdxOf c l = none := by
  intro l
  induction l with
  | nil => intro _; rfl
  | cons x xs ih =>
    intro h
    simp only [firstIdxOf]
    rw [if_neg (h x (by simp)), ih (fun y hy => h y (by simp [hy]))]
    rfl

theorem jsIndexOf_found (pre mid post : List Nat) (c : Nat) (h : ∀ x ∈ mid, x ≠ c) :
    jsIndexOf (pre ++ (mid ++ c :: post)) c pre.length = some (pre.length + mid.length) := by
  unfold jsIndexOf
  rw [List.drop_left, firstIdxOf_skip post h]
  rfl

theorem jsIndexOf_missing (pre rest : List Nat) (c : Nat) (h : ∀ x ∈ rest, x ≠ c) :
    jsIndexOf (pre ++ rest) c pre.length = none := by
  unfold jsIndexOf
  rw [List.drop_left, firstIdxOf_none h]
  rfl

theorem take_drop_mid (pre mid rest : List Nat) {a b : Nat}
    (ha : a = pre.length + mid.length) (hb : b = pre.length) :
    ((pre ++ (mid ++ rest)).take a).drop b = mid := by
  subst ha
  subst hb
  rw [List.take_append, List.take_left, List.drop_left]

theorem decodeStringF_enc (b : List Nat) (pre post : List Nat) :
    decodeStringF (pre ++ (natToDigitBytes b.length ++ 58 :: (b ++ post))) pre.length =
      .ok (pre.length + (natToDigitBytes b.length).length + 1 + b.length) b := by
  have hno58 : ∀ x ∈ natToDigitBytes b.length, x ≠ 58 := fun x hx => by
    have := mem_natToDigitBytes hx
    omega
  have hidx := jsIndexOf_found pre (natToDigitBytes b.length) (b ++ post) 58 hno58
  have hdig : (((pre ++ (natToDigitBytes b.length ++ 58 :: (b ++ post))).take
      (pre.length + (natToDigitBytes b.length).length)).drop pre.length) =
      natToDigitBytes b.length := by
    rw [show pre ++ (natToDigitBytes b.length ++ 58 :: (b ++ post)) =
      pre ++ (natToDigitBytes b.length ++ (58 :: (b ++ post))) from rfl]
    exact take_drop_mid pre _ _ rfl rfl
  have hval : (((pre ++ (natToDigitBytes b.length ++ 58 :: (b ++ post))).take
      (pre.length + (natToDigitBytes b.length).length + (b.length : Int).toNat + 1)).drop
      (pre.length + (natToDigitBytes b.length).length + 1)) = b := by
    rw [show pre ++ (natToDigitBytes b.length ++ 58 :: (b ++ post)) =
      (pre ++ natToDigitBytes b.length ++ [58]) ++ (b ++ post) by simp]
    exact take_drop_mid _ b post (by simp [Int.toNat_natCast]; omega) (by simp; omega)
  simp only [decodeStringF, hidx, hdig, jsParseInt_natToDigitBytes]
  rw [if_neg (by simp)]
  rw [hval]
  have hpos : pre.length + (natToDigitBytes b.length).length + (b.length : Int).toNat + 1 =
      pre.length + (natToDigitBytes b.length).length + 1 + b.length := by
    simp [Int.toNat_natCast]
    omega
  rw [hpos]

theorem mem_intToDigitBytes {c : Nat} {i : Int} (h : c ∈ intToDigitBytes i) :
    45 ≤ c ∧ c ≤ 57 := by
  unfold intToDigitBytes at h
  by_cases hi : i < 0
  · rw [if_pos hi] at h
    rcases List.mem_cons.mp h with rfl | h2
    · omega
    · have := mem_natToDigitBytes h2
      omega
  · rw [if_neg hi] at h
    have := mem_natToDigitBytes h
    omega

theorem decodeIntF_enc (n : Int) (pre post : List Nat) :
    decodeIntF (pre ++ (105 :: (intToDigitBytes n ++ 101 :: post))) pre.length =
      .ok (pre.length + (intToDigitBytes n).length + 2) (.int n) := by
  have hat : (pre ++ (105 :: (intToDigitBytes n ++ 101 :: post)))[pre.length]? = some 105 := by
    rw [getAt_append]
    simp
  have hno101 : ∀ x ∈ intToDigitBytes n, x ≠ 101 := fun x hx => by
    have := mem_intToDigitBytes hx
    omega
  have hidx : jsIndexOf (pre ++ (105 :: (intToDigitBytes n ++ 101 :: post))) 101
      (pre.length + 1) = some (pre.length + 1 + (intToDigitBytes n).length) := by
    have h2 := jsIndexOf_found (pre ++ [105]) (intToDigitBytes n) post 101 hno101
    rw [show (pre ++ [105]) ++ (intToDigitBytes n ++ 101 :: post) =
      pre ++ (105 :: (intToDigitBytes n ++ 101 :: post)) by simp] at h2
    simpa using h2
  have hdig : (((pre ++ (105 :: (intToDigitBytes n ++ 101 :: post))).take
      (pre.length + 1 + (intToDigitBytes n).length)).drop (pre.length + 1)) =
      intToDigitBytes n := by
    rw [show pre ++ (105 :: (intToDigitBytes n ++ 101 :: post)) =
      (pre ++ [105]) ++ (intToDigitBytes n ++ (101 :: post)) by simp]
    exact take_drop_mid _ _ _ (by simp) (by simp)
  simp only [decodeIntF]
  rw [if_neg (by rw [hat]; simp)]
  simp only [hidx, hdig, jsNumber_intToDigitBytes]
  have hpos : pre.length + 1 + (intToDigitBytes n).length + 1 =
      pre.length + (intToDigitBytes n).length + 2 := by omega
  rw [hpos]

theorem encB_head_ne (x : Benc) (hx : goodB x = true) :
    ∃ c cs, encB x = c :: cs ∧ c ≠ 101 := by
  cases x with
  | bytes b =>
    obtain ⟨c, cs0, hd, h48, h57⟩ := natToDigitBytes_cons b.length
    refine ⟨c, cs0 ++ 58 :: b, ?_, by omega⟩
    simp only [encB, hd, List.cons_append]
  | str s => simp [goodB] at hx
  | int n => exact ⟨105, intToDigitBytes n ++ [101], rfl, by omega⟩
  | nanum => simp [goodB] at hx
  | list l => exact ⟨108, encBL l ++ [101], rfl, by omega⟩
  | dict d => exact ⟨100, encBD d ++ [101], rfl, by omega⟩
  | mapd m => simp [goodB] at hx

theorem keyLt_irrefl : ∀ a : List Nat, keyLt a a = false
  | [] => rfl
  | x :: xs => by simp [keyLt, keyLt_irrefl xs]

theorem keyLt_trans : ∀ (a b c : List Nat),
    keyLt a b = true → keyLt b c = true → keyLt a c = true
  | [], [], _, hab, _ => by simp [keyLt] at hab
  | [], _ :: _, [], _, hbc => by simp [keyLt] at hbc
  | [], _ :: _, _ :: _, _, _ => rfl
  | _ :: _, [], _, hab, _ => by simp [keyLt] at hab
  | _ :: _, _ :: _, [], _, hbc => by simp [keyLt] at hbc
  | x :: xs, y :: ys, z :: zs, hab, hbc => by
    simp only [keyLt, Bool.or_eq_true, Bool.and_eq_true, decide_eq_true_eq] at hab hbc ⊢
    rcases hab with h1 | ⟨he1, h1⟩
    · rcases hbc with h2 | ⟨he2, h2⟩
      · exact Or.inl (by omega)
      · exact Or.inl (by omega)
    · rcases hbc with h2 | ⟨he2, h2⟩
      · exact Or.inl (by omega)
      · exact Or.inr ⟨by omega, keyLt_trans xs ys zs h1 h2⟩

theorem keyFresh_appendD (x : List Nat) : ∀ (a b : BDict),
    keyFresh x (a.appendD b) = (keyFresh x a && keyFresh x b)
  | .nil, b => by simp [BDict.appendD, keyFresh]
  | .cons k v tl, b => by
    simp only [BDict.appendD, keyFresh]
    by_cases hk : k = x
    · simp [hk]
    · simp only [if_neg hk]
      exact keyFresh_appendD x tl b

theorem sorted_head_fresh : ∀ (k : List Nat) (v : Benc) (tl : BDict),
    sortedKeysD (.cons k v tl) = true → keyFresh k tl = true
  | _, _, .nil, _ => rfl
  | k, v, .cons k2 v2 tl2, h => by
    simp only [sortedKeysD, firstKeyGt, Bool.and_eq_true] at h
    obtain ⟨hlt, hfg, hsrt⟩ := h
    unfold keyFresh
    rw [if_neg (by
      intro heq
      rw [heq] at hlt
      rw [keyLt_irrefl k] at hlt
      cases hlt)]
    apply sorted_head_fresh k v tl2
    simp only [sortedKeysD, Bool.and_eq_true]
    refine ⟨?_, hsrt⟩
    cases tl2 with
    | nil => rfl
    | cons k3 v3 tl3 =>
      simp only [firstKeyGt] at hfg ⊢
      exact keyLt_trans k k2 k3 hlt hfg

theorem setKey_fresh (k : List Nat) (v : Benc) : ∀ (acc : BDict), keyFresh k acc = true →
    BDict.setKey acc k v = BDict.appendD acc (.cons k v .nil)
  | .nil, _ => rfl
  | .cons k2 v2 tl, h => by
    unfold keyFresh at h
    by_cases hk : k2 = k
    · rw [if_pos hk] at h
      cases h
    · rw [if_neg hk] at h
      simp only [BDict.setKey, BDict.appendD]
      rw [if_neg hk, setKey_fresh k v tl h]

theorem appendD_single_cons (k : List Nat) (v : Benc) (tl : BDict) : ∀ (a : BDict),
    (a.appendD (.cons k v .nil)).appendD tl = a.appendD (.cons k v tl)
  | .nil => rfl
  | .cons k2 v2 a2 => by
    simp only [BDict.appendD]
    rw [appendD_single_cons k v tl a2]

theorem allFresh_extend : ∀ (tl : BDict) (acc : BDict) (k : List Nat) (v : Benc),
    allFresh tl acc = true → keyFresh k tl = true →
    allFresh tl (acc.appendD (.cons k v .nil)) = true
  | .nil, _, _, _, _, _ => rfl
  | .cons k2 v2 tl2, acc, k, v, hall, hfr => by
    simp only [allFresh, Bool.and_eq_true] at hall
    unfold keyFresh at hfr
    by_cases hk : k2 = k
    · rw [if_pos hk] at hfr
      cases hfr
    · rw [if_neg hk] at hfr
      simp only [allFresh, Bool.and_eq_true]
      refine ⟨?_, allFresh_extend tl2 acc k v hall.2 hfr⟩
      rw [keyFresh_appendD]
      simp only [Bool.and_eq_true]
      refine ⟨hall.1, ?_⟩
      unfold keyFresh
      rw [if_neg (fun h2 => hk h2.symm)]
      rfl

theorem allFresh_nil_acc : ∀ (d : BDict), allFresh d .nil = true
  | .nil => rfl
  | .cons k v tl => by
    simp only [allFresh, Bool.and_eq_true]
    exact ⟨rfl, allFresh_nil_acc tl⟩

theorem appendL_nil_right : ∀ (l : BList), l.appendL .nil = l
  | .nil => rfl
  | .cons x tl => by
    simp only [BList.appendL]
    rw [appendL_nil_right tl]

theorem push_appendL : ∀ (acc : BList) (x : Benc) (tl : BList),
    (acc.push x).appendL tl = acc.appendL (.cons x tl)
  | .nil, _, _ => rfl
  | .cons h a2, x, tl => by
    simp only [BList.push, BList.appendL]
    rw [push_appendL a2 x tl]

theorem appendD_nil_right : ∀ (d : BDict), d.appendD .nil = d
  | .nil => rfl
  | .cons k v tl => by
    simp only [BDict.appendD]
    rw [appendD_nil_right tl]

theorem costB_pos : ∀ x : Benc, 1 ≤ costB x := by
  intro x
  cases x <;> simp [costB] <;> omega

theorem costL_pos : ∀ l : BList, 1 ≤ costL l := by
  intro l
  cases l <;> simp [costL] <;> omega

theorem costD_pos : ∀ d : BDict, 1 ≤ costD d := by
  intro d
  cases d <;> simp [costD] <;> omega

mutual

theorem decodeGo_encB : ∀ (x : Benc), goodB x = true →
    ∀ (pre post : List Nat) (fuel : Nat), costB x ≤ fuel →
      decodeGo fuel .top (pre ++ (encB x ++ post)) pre.length =
        .ok (pre.length + (encB x).length) x
  | x, _, _, _, 0, hc => by
    have := costB_pos x
    omega
  | .str s, hx, _, _, fuel + 1, _ => by simp [goodB] at hx
  | .nanum, hx, _, _, fuel + 1, _ => by simp [goodB] at hx
  | .mapd m, hx, _, _, fuel + 1, _ => by simp [goodB] at hx
  | .bytes b, _, pre, post, fuel + 1, _ => by
    have hdata : pre ++ (encB (.bytes b) ++ post) =
        pre ++ (natToDigitBytes b.length ++ 58 :: (b ++ post)) := by
      simp [encB]
    obtain ⟨c, cs0, hdcons, h48, h57⟩ := natToDigitBytes_cons b.length
    have hat : (pre ++ (natToDigitBytes b.length ++ 58 :: (b ++ post)))[pre.length]? =
        some c := by
      rw [getAt_append, hdcons]
      simp
    rw [hdata]
    simp only [decodeGo]
    rw [if_neg (by rw [hat]; simp; omega), if_neg (by rw [hat]; simp; omega),
      if_neg (by rw [hat]; simp; omega)]
    rw [decodeStringF_enc b pre post]
    simp only [DRes.mapVal]
    have hfin : pre.length + (natToDigitBytes b.length).length + 1 + b.length =
        pre.length + (encB (Benc.bytes b)).length := by
      simp [encB]
      omega
    rw [hfin]
  | .int n, _, pre, post, fuel + 1, _ => by
    have hdata : pre ++ (encB (.int n) ++ post) =
        pre ++ (105 :: (intToDigitBytes n ++ 101 :: post)) := by
      simp [encB]
    have hat : (pre ++ (105 :: (intToDigitBytes n ++ 101 :: post)))[pre.length]? =
        some 105 := by
      rw [getAt_append]
      simp
    rw [hdata]
    simp only [decodeGo]
    rw [if_neg (by rw [hat]; simp), if_neg (by rw [hat]; simp), if_pos hat]
    rw [decodeIntF_enc n pre post]
    have hfin : pre.length + (intToDigitBytes n).length + 2 =
        pre.length + (encB (Benc.int n)).length := by
      simp [encB]
      omega
    rw [hfin]
  | .list l, hx, pre, post, fuel + 1, hc => by
    have hgl : goodL l = true := by simpa [goodB] using hx
    have hcl : costL l ≤ fuel := by
      simp only [costB] at hc
      omega
    have hdata : pre ++ (encB (.list l) ++ post) =
        pre ++ (108 :: (encBL l ++ 101 :: post)) := by
      simp [encB]
    have hat : (pre ++ (108 :: (encBL l ++ 101 :: post)))[pre.length]? = some 108 := by
      rw [getAt_append]
      simp
    rw [hdata]
    simp only [decodeGo]
    rw [if_neg (by rw [hat]; simp), if_pos hat]
    have hrec := decodeGo_encBL l hgl .nil (pre ++ [108]) post fuel hcl
    rw [show (pre ++ [108]) ++ (encBL l ++ 101 :: post) =
      pre ++ (108 :: (encBL l ++ 101 :: post)) by simp] at hrec
    have hlen108 : (pre ++ [108]).length = pre.length + 1 := by simp
    rw [hlen108] at hrec
    rw [hrec]
    have hval : BList.appendL .nil l = l := rfl
    rw [hval]
    have hfin : pre.length + 1 + (encBL l).length + 1 =
        pre.length + (encB (Benc.list l)).length := by
      simp [encB]
      omega
    rw [hfin]
  | .dict d, hx, pre, post, fuel + 1, hc => by
    have hsd : sortedKeysD d = true := by
      simp only [goodB, Bool.and_eq_true] at hx
      exact hx.1
    have hgd : goodD d = true := by
      simp only [goodB, Bool.and_eq_true] at hx
      exact hx.2
    have hcd : costD d ≤ fuel := by
      simp only [costB] at hc
      omega
    have hdata : pre ++ (encB (.dict d) ++ post) =
        pre ++ (100 :: (encBD d ++ 101 :: post)) := by
      simp [encB]
    have hat : (pre ++ (100 :: (encBD d ++ 101 :: post)))[pre.length]? = some 100 := by
      rw [getAt_append]
      simp
    rw [hdata]
    simp only [decodeGo]
    rw [if_pos hat]
    have hrec := decodeGo_encBD d hgd hsd .nil (allFresh_nil_acc d) (pre ++ [100]) post fuel hcd
    rw [show (pre ++ [100]) ++ (encBD d ++ 101 :: post) =
      pre ++ (100 :: (encBD d ++ 101 :: post)) by simp] at hrec
    have hlen100 : (pre ++ [100]).length = pre.length + 1 := by simp
    rw [hlen100] at hrec
    rw [hrec]
    have hval : BDict.appendD .nil d = d := rfl
    rw [hval]
    have hfin : pre.length + 1 + (encBD d).length + 1 =
        pre.length + (encB (Benc.dict d)).length := by
      simp [encB]
      omega
    rw [hfin]

theorem decodeGo_encBL : ∀ (l : BList), goodL l = true →
    ∀ (acc : BList) (pre post : List Nat) (fuel : Nat), costL l ≤ fuel →
      decodeGo fuel (.listLoop acc) (pre ++ (encBL l ++ 101 :: post)) pre.length =
        .ok (pre.length + (encBL l).length + 1) (.list (acc.appendL l))
  | l, _, _, _, _, 0, hc => by
    have := costL_pos l
    omega
  | .nil, _, acc, pre, post, fuel + 1, _ => by
    have hat : (pre ++ (encBL .nil ++ 101 :: post))[pre.length]? = some 101 := by
      rw [show encBL .nil ++ 101 :: post = 101 :: post from rfl, getAt_append]
      simp
    simp only [decodeGo]
    rw [if_pos hat]
    simp [encBL, appendL_nil_right]
  | .cons x tl, hl, acc, pre, post, fuel + 1, hc => by
    have hgx : goodB x = true := by
      simp only [goodL, Bool.and_eq_true] at hl
      exact hl.1
    have hgtl : goodL tl = true := by
      simp only [goodL, Bool.and_eq_true] at hl
      exact hl.2
    have hcx : costB x ≤ fuel := by
      simp only [costL] at hc
      have := costL_pos tl
      omega
    have hctl : costL tl ≤ fuel := by
      simp only [costL] at hc
      have := costB_pos x
      omega
    have hdata : pre ++ (encBL (.cons x tl) ++ 101 :: post) =
        pre ++ (encB x ++ (encBL tl ++ 101 :: post)) := by
      simp [encBL]
    rw [hdata]
    obtain ⟨c, cs, hhead, hc101⟩ := encB_head_ne x hgx
    have hat : (pre ++ (encB x ++ (encBL tl ++ 101 :: post)))[pre.length]? = some c := by
      rw [getAt_append, hhead]
      simp
    simp only [decodeGo]
    rw [if_neg (by rw [hat]; simp only [Option.some.injEq]; exact hc101)]
    simp only [decodeGo_encB x hgx pre (encBL tl ++ 101 :: post) fuel hcx]
    have hrec := decodeGo_encBL tl hgtl (acc.push x) (pre ++ encB x) post fuel hctl
    rw [show (pre ++ encB x) ++ (encBL tl ++ 101 :: post) =
      pre ++ (encB x ++ (encBL tl ++ 101 :: post)) by simp] at hrec
    rw [show (pre ++ encB x).length = pre.length + (encB x).length by simp] at hrec
    rw [hrec, push_appendL]
    have hfin : pre.length + (encB x).length + (encBL tl).length + 1 =
        pre.length + (encBL (BList.cons x tl)).length + 1 := by
      simp [encBL]
      omega
    rw [hfin]

theorem decodeGo_encBD : ∀ (d : BDict), goodD d = true → sortedKeysD d = true →
    ∀ (acc : BDict), allFresh d acc = true →
    ∀ (pre post : List Nat) (fuel : Nat), costD d ≤ fuel →
      decodeGo fuel (.dictLoop acc) (pre ++ (encBD d ++ 101 :: post)) pre.length =
        .ok (pre.length + (encBD d).length + 1) (.dict (acc.appendD d))
  | d, _, _, _, _, _, _, 0, hc => by
    have := costD_pos d
    omega
  | .nil, _, _, acc, _, pre, post, fuel + 1, _ => by
    have hat : (pre ++ (encBD .nil ++ 101 :: post))[pre.length]? = some 101 := by
      rw [show encBD .nil ++ 101 :: post = 101 :: post from rfl, getAt_append]
      simp
    simp only [decodeGo]
    rw [if_pos hat]
    simp [encBD, appendD_nil_right]
  | .cons k v tl, hg, hs, acc, hf, pre, post, fuel + 1, hc => by
    have hgv : goodB v = true := by
      simp only [goodD, Bool.and_eq_true] at hg
      exact hg.1
    have hgtl : goodD tl = true := by
      simp only [goodD, Bool.and_eq_true] at hg
      exact hg.2
    have hstl : sortedKeysD tl = true := by
      simp only [sortedKeysD, Bool.and_eq_true] at hs
      exact hs.2
    have hfrk : keyFresh k acc = true := by
      simp only [allFresh, Bool.and_eq_true] at hf
      exact hf.1
    have hftl : allFresh tl acc = true := by
      simp only [allFresh, Bool.and_eq_true] at hf
      exact hf.2
    have hkfresh : keyFresh k tl = true := sorted_head_fresh k v tl hs
    have hcv : costB v ≤ fuel := by
      simp only [costD] at hc
      have := costD_pos tl
      omega
    have hctl : costD tl ≤ fuel := by
      simp only [costD] at hc
      have := costB_pos v
      omega
    have hdata : pre ++ (encBD (.cons k v tl) ++ 101 :: post) =
        pre ++ (natToDigitBytes k.length ++ 58 ::
          (k ++ (encB v ++ (encBD tl ++ 101 :: post)))) := by
      simp [encBD]
    rw [hdata]
    obtain ⟨c, cs0, hdcons, h48, h57⟩ := natToDigitBytes_cons k.length
    have hat : (pre ++ (natToDigitBytes k.length ++ 58 ::
        (k ++ (encB v ++ (encBD tl ++ 101 :: post)))))[pre.length]? = some c := by
      rw [getAt_append, hdcons]
      simp
    simp only [decodeGo]
    rw [if_neg (by rw [hat]; simp; omega)]
    simp only [decodeStringF_enc k pre (encB v ++ (encBD tl ++ 101 :: post))]
    have hKE : pre ++ (natToDigitBytes k.length ++ 58 ::
        (k ++ (encB v ++ (encBD tl ++ 101 :: post)))) =
        (pre ++ (natToDigitBytes k.length ++ 58 :: k)) ++
          (encB v ++ (encBD tl ++ 101 :: post)) := by
      simp
    have hn2 : pre.length + (natToDigitBytes k.length).length + 1 + k.length =
        (pre ++ (natToDigitBytes k.length ++ 58 :: k)).length := by
      simp
      omega
    rw [hKE, hn2]
    simp only [decodeGo_encB v hgv (pre ++ (natToDigitBytes k.length ++ 58 :: k))
      (encBD tl ++ 101 :: post) fuel hcv]
    rw [setKey_fresh k v acc hfrk]
    have hrec := decodeGo_encBD tl hgtl hstl (acc.appendD (.cons k v .nil))
      (allFresh_extend tl acc k v hftl hkfresh)
      ((pre ++ (natToDigitBytes k.length ++ 58 :: k)) ++ encB v) post fuel hctl
    rw [show ((pre ++ (natToDigitBytes k.length ++ 58 :: k)) ++ encB v) ++
        (encBD tl ++ 101 :: post) =
      (pre ++ (natToDigitBytes k.length ++ 58 :: k)) ++
        (encB v ++ (encBD tl ++ 101 :: post)) by simp] at hrec
    have hlenKE : ((pre ++ (natToDigitBytes k.length ++ 58 :: k)) ++ encB v).length =
        (pre ++ (natToDigitBytes k.length ++ 58 :: k)).length + (encB v).length := by
      simp
      omega
    rw [hlenKE] at hrec
    rw [hrec, appendD_single_cons]
    have hfin : (pre ++ (natToDigitBytes k.length ++ 58 :: k)).length + (encB v).length +
        (encBD tl).length + 1 =
        pre.length + (encBD (BDict.cons k v tl)).length + 1 := by
      simp [encBD]
      omega
    rw [hfin]

end

theorem jsParseInt_nil : jsParseInt [] = none := rfl

theorem jsParseInt_head_bad (c : Nat) (rest : List Nat) (hdig : isDigitByte c = false)
    (h45 : c ≠ 45) (h43 : c ≠ 43) (hws : isJsWhitespace c = false) :
    jsParseInt (c :: rest) = none := by
  simp only [jsParseInt, List.dropWhile_cons, hws, Bool.false_eq_true, if_false,
    jsParseIntTrimmed, List.head?_cons, List.takeWhile_cons, hdig]
  simp [h45, h43]

theorem jsIndexOf_zero (data : List Nat) (c : Nat) :
    jsIndexOf data c 0 = firstIdxOf c data := by
  unfold jsIndexOf
  rw [List.drop_zero]
  cases firstIdxOf c data <;> simp

theorem decodeStringF_bad_head (c : Nat) (cs : List Nat) (hdig : isDigitByte c = false)
    (h45 : c ≠ 45) (h43 : c ≠ 43) (hws : isJsWhitespace c = false) :
    decodeStringF (c :: cs) 0 = .err "Failed to bdecode. Malformed string" := by
  by_cases h58 : c = 58
  · subst h58
    have hidx : jsIndexOf (58 :: cs) 58 0 = some 0 := by
      rw [jsIndexOf_zero]
      simp [firstIdxOf]
    simp only [decodeStringF, hidx, List.drop_zero, List.take_zero, jsParseInt_nil]
  · have hfi : firstIdxOf 58 (c :: cs) = (firstIdxOf 58 cs).map (fun i => i + 1) := by
      simp only [firstIdxOf, if_neg h58]
    rcases hj : firstIdxOf 58 cs with _ | j
    · have hidx : jsIndexOf (c :: cs) 58 0 = none := by
        rw [jsIndexOf_zero, hfi, hj]
        rfl
      simp only [decodeStringF, hidx, List.drop_zero]
      cases cs with
      | nil =>
        rw [show (([c] : List Nat)).dropLast = [] from rfl, jsParseInt_nil]
      | cons c2 cs2 =>
        rw [show ((c :: c2 :: cs2).dropLast) = c :: (c2 :: cs2).dropLast from rfl,
          jsParseInt_head_bad c _ hdig h45 h43 hws]
    · have hidx : jsIndexOf (c :: cs) 58 0 = some (j + 1) := by
        rw [jsIndexOf_zero, hfi, hj]
        rfl
      simp only [decodeStringF, hidx, List.drop_zero]
      rw [show ((c :: cs).take (j + 1)) = c :: cs.take j from rfl,
        jsParseInt_head_bad c _ hdig h45 h43 hws]

theorem decodeGo_malformed (data : List Nat) (fuel : Nat)
    (hbad : data = [] ∨ ∃ c cs, data = c :: cs ∧ c ≠ 100 ∧ c ≠ 108 ∧ c ≠ 105 ∧
      isDigitByte c = false ∧ c ≠ 45 ∧ c ≠ 43 ∧ isJsWhitespace c = false) :
    decodeGo (fuel + 1) .top data 0 = .err "Failed to bdecode. Malformed string" := by
  rcases hbad with rfl | ⟨c, cs, rfl, h100, h108, h105, hdig, h45, h43, hws⟩
  · rfl
  · have hat : (c :: cs)[0]? = some c := by simp
    simp only [decodeGo]
    rw [if_neg (by rw [hat]; simp only [Option.some.injEq]; exact h100),
      if_neg (by rw [hat]; simp only [Option.some.injEq]; exact h108),
      if_neg (by rw [hat]; simp only [Option.some.injEq]; exact h105)]
    rw [decodeStringF_bad_head c cs hdig h45 h43 hws]
    rfl

/-- Claim C3, counterexample to the claim as stated: the native string "a"
is Bencodeable, its encoding contains no dictionary at all (so the
sorted-keys proviso is vacuously met), yet bdecode(bencode "a") is the
byte string [97] — decodeString always builds a Uint8Array, never a native
string — so the round trip does not return the original value. -/
theorem roundtrip_fails_on_native_string :
    bencode (.str [97]) = [49, 58, 97] ∧
    bdecodeF 2 (bencode (.str [97])) = .ok 0 (.bytes [97]) ∧
    Benc.bytes [97] ≠ Benc.str [97] :=
  ⟨rfl, rfl, fun h => nomatch h⟩

/-- Claim C3 amended: bdecode(bencode x) = x holds for every Bencodeable
value built from byte strings, integer-valued numbers, arrays and
plain-object dictionaries whose keys are strictly sorted — the cases the
claim must exclude are native strings (they come back as Uint8Arrays), NaN
(not equal to itself) and Maps (they come back as plain objects). The fuel
argument only bounds the loop iterations of the shallow embedding;
costB x of fuel always suffices for terminating runs. -/
theorem bdecode_bencode_roundtrip (x : Benc) (hx : goodB x = true) :
    bdecodeF (costB x) (bencode x) = .ok 0 x := by
  have h := decodeGo_encB x hx [] [] (costB x) (le_refl _)
  simp only [List.nil_append, List.append_nil, List.length_nil] at h
  simp only [bdecodeF, decodeF, bencode, h]

theorem bdecode_bencode_roundtrip_witness :
    bdecodeF (costB (.dict (.cons [97] (.int 5) (.cons [98] (.bytes [1, 2]) .nil))))
      (bencode (.dict (.cons [97] (.int 5) (.cons [98] (.bytes [1, 2]) .nil)))) =
      .ok 0 (.dict (.cons [97] (.int 5) (.cons [98] (.bytes [1, 2]) .nil))) :=
  bdecode_bencode_roundtrip (.dict (.cons [97] (.int 5) (.cons [98] (.bytes [1, 2]) .nil)))
    (by decide)

/-- Claim C4, counterexample to the claim as stated: the truncated input
"5:ab" declares a string of length 5 but provides only two bytes; subarray
clamps the out-of-range slice, so bdecode returns the byte string "ab" as
a value instead of failing with an error. -/
theorem bdecode_returns_value_on_truncated_input :
    bdecodeF 9 [53, 58, 97, 98] = .ok 0 (.bytes [97, 98]) := rfl

/-- Claim C4 amended: bdecode fails with the Malformed-string error when
the input is empty or its first byte is not a digit, a sign, whitespace or
one of d, l, i (parseInt of the length prefix is NaN); but on other
malformed inputs it does not fail: a truncated string body ("5:ab")
returns the available bytes as a value, a non-numeric integer body
("iabce") returns NaN as a value, and an integer missing its closing e
("i42") makes the while loop of decodeInt run forever, for any amount of
fuel, instead of returning or throwing. -/
theorem bdecode_malformed_behavior :
    (∀ (data : List Nat) (fuel : Nat), 1 ≤ fuel →
        (data = [] ∨ ∃ c cs, data = c :: cs ∧ c ≠ 100 ∧ c ≠ 108 ∧ c ≠ 105 ∧
          isDigitByte c = false ∧ c ≠ 45 ∧ c ≠ 43 ∧ isJsWhitespace c = false) →
        bdecodeF fuel data = .err "Failed to bdecode. Malformed string") ∧
    bdecodeF 9 [53, 58, 97, 98] = .ok 0 (.bytes [97, 98]) ∧
    bdecodeF 9 [105, 97, 98, 99, 101] = .ok 0 .nanum ∧
    (∀ fuel : Nat, bdecodeF fuel [105, 52, 50] = .diverge) := by
  refine ⟨?_, rfl, rfl, ?_⟩
  · intro data fuel h1 hbad
    obtain ⟨f, rfl⟩ : ∃ f, fuel = f + 1 := ⟨fuel - 1, by omega⟩
    simp only [bdecodeF, decodeF, decodeGo_malformed data f hbad]
  · intro fuel
    cases fuel with
    | zero => rfl
    | succ f => rfl

theorem bdecode_malformed_behavior_witness :
    bdecodeF 3 [120, 58, 97] = .err "Failed to bdecode. Malformed string" :=
  bdecode_malformed_behavior.1 [120, 58, 97] 3 (by decide)
    (Or.inr ⟨120, [58, 97], rfl, by decide, by decide, by decide, by decide, by decide,
      by decide, by decide⟩)

end Bencode

end Spec2Proof
